import Mathlib

/-!
Shallow embedding of the session-token algebra, session stores, and the mock
query pipeline of the `azure_data_cosmos` crate
(`src/sdk/cosmos/azure_data_cosmos/src/session/{vector,partition,container,session}.rs`
and `tests/mock_engine/mod.rs`), together with proofs of the specification
claims about them.

Modelling conventions:
* Rust `u64`/`u32` values are `Nat` with explicit upper bounds `U64MAX`/`U32MAX`
  where the source performs checked (overflowing) arithmetic.  The `Lsn` and
  `RegionId` newtypes are transparent wrappers around `u64`/`u32` ordered by
  value, so they are flattened to `Nat`.
* Rust strings are `List Char` (the delimiters `'#'`, `'='`, `':'`, `','`
  scanned by the source are all ASCII, so char-level scanning coincides with
  the source's byte/`char_indices` scanning on every input).
* `HashMap` values are association lists built only through `insertAL`, which
  replaces the entry of an existing key; `HashMap` equality (`PartialEq`) is
  lookup-extensional equality.  The well-formedness invariant `keys nodup`
  that every real `HashMap` satisfies is carried as a hypothesis where needed.
* Fallible Rust functions returning `Result` are embedded as `Except`.
-/

namespace Cosmos

def U64MAX : Nat := 18446744073709551615

def U32MAX : Nat := 4294967295

/-- Error type of `session/error.rs` (payload `String`s become `List Char`). -/
inductive Error where
  | EmptyInput : Error
  | MissingComponents : Error
  | InvalidVersion : List Char → Error
  | InvalidGlobalLsn : List Char → Error
  | InvalidRegionId : List Char → Error
  | InvalidRegionLsn : List Char → Error
  | MalformedRegionalComponent : List Char → Error
  | InvalidRegions : List Char → List Char → Error
  | TokensCannotBeMerged : List Char → Error
deriving DecidableEq, Repr

instance exceptDecEq {ε α : Type} [DecidableEq ε] [DecidableEq α] :
    DecidableEq (Except ε α) := fun a b =>
  match a, b with
  | .error e1, .error e2 =>
    if h : e1 = e2 then .isTrue (by rw [h])
    else .isFalse (by intro hc; injection hc; exact h (by assumption))
  | .error _, .ok _ => .isFalse (by intro hc; injection hc)
  | .ok _, .error _ => .isFalse (by intro hc; injection hc)
  | .ok v1, .ok v2 =>
    if h : v1 = v2 then .isTrue (by rw [h])
    else .isFalse (by intro hc; injection hc; exact h (by assumption))

/-- Association-list lookup: model of `HashMap::get` (keys are unique in any
map built by `insertAL`, so first-match lookup is the map's lookup). -/
def lookupAL {α β : Type} [DecidableEq α] : List (α × β) → α → Option β
  | [], _ => none
  | (k', v) :: rest, k => if k' = k then some v else lookupAL rest k

/-- Association-list insert: model of `HashMap::insert` (replaces the value of
an existing key, otherwise adds the entry). -/
def insertAL {α β : Type} [DecidableEq α] : List (α × β) → α → β → List (α × β)
  | [], k, v => [(k, v)]
  | (k', v') :: rest, k, v =>
    if k' = k then (k, v) :: rest else (k', v') :: insertAL rest k v

/-- One step of `parse_u64_from_slice`/`parse_u32_from_slice`'s loop: match a
digit byte, `checked_mul` by 10, `checked_add` the digit (checked against
`bound`, the max value of the integer width). -/
def parseNatGo (bound : Nat) : List Char → Nat → Option Nat
  | [], acc => some acc
  | c :: cs, acc =>
    if c.isDigit then
      if acc * 10 > bound then none
      else if acc * 10 + (c.toNat - 48) > bound then none
      else parseNatGo bound cs (acc * 10 + (c.toNat - 48))
    else none

/-- `parse_u64_from_slice` (with `bound = U64MAX`) and `parse_u32_from_slice`
(with `bound = U32MAX`): fails on an empty slice, a non-digit byte, or
overflow; `none` stands for the source's `Err(())`. -/
def parseNatFromSlice (bound : Nat) (s : List Char) : Option Nat :=
  if s = [] then none else parseNatGo bound s 0

/-- The numeric value of a digit string: the denotation of `parseNatGo`'s
accumulator, used to relate parsing and decimal rendering. -/
def digitsVal : Nat → List Char → Nat
  | acc, [] => acc
  | acc, c :: cs => digitsVal (acc * 10 + (c.toNat - 48)) cs

structure VectorSessionToken where
  version : Nat
  global_lsn : Nat
  regional_lsns : List (Nat × Nat)
deriving DecidableEq, Repr

namespace VectorSessionToken

/-- Parse one regional component `"<region_id>=<region_lsn>"`: split at the
first `'='` (`component.find('=')`), reject a missing `'='` or an empty key or
value, then parse the two numeric fields. -/
def parseComponent (comp : List Char) : Except Error (Nat × Nat) :=
  let ridStr := comp.takeWhile (fun c => !(c = '='))
  match comp.dropWhile (fun c => !(c = '=')) with
  | [] => .error (.MalformedRegionalComponent comp)
  | _ :: lsnStr =>
    if ridStr = [] ∨ lsnStr = [] then .error (.MalformedRegionalComponent comp)
    else
      match parseNatFromSlice U32MAX ridStr with
      | none => .error (.InvalidRegionId ridStr)
      | some rid =>
        match parseNatFromSlice U64MAX lsnStr with
        | none => .error (.InvalidRegionLsn lsnStr)
        | some rlsn => .ok (rid, rlsn)

/-- The `while current_pos < s.len()` loop of `from_str`: scan up to the next
`'#'` (or end of input), parse that component, insert it, and continue after
the `'#'`.  `comp` accumulates the characters of the current component.
A `'#'` that ends the input leaves `current_pos = s.len()`, so no further
(empty) component is processed after it. -/
def componentsGo (m : List (Nat × Nat)) (comp : List Char) :
    List Char → Except Error (List (Nat × Nat))
  | [] =>
    match parseComponent comp with
    | .error e => .error e
    | .ok (k, v) => .ok (insertAL m k v)
  | c :: rest =>
    if c = '#' then
      match parseComponent comp with
      | .error e => .error e
      | .ok (k, v) =>
        match rest with
        | [] => .ok (insertAL m k v)
        | _ :: _ => componentsGo (insertAL m k v) [] rest
    else componentsGo m (comp ++ [c]) rest

/-- `VectorSessionToken::from_str`.  Wire format
`"<version>#<global_lsn>[#<region_id>=<region_lsn>]*"`:
empty input fails with `EmptyInput`; a missing first `'#'` fails with
`MissingComponents`; then the version is parsed (failing with
`InvalidVersion`) *before* the `global_lsn_start >= s.len()` check (nothing
after the first `'#'`) fails with `MissingComponents`; the remaining numeric
fields fail with their dedicated error kinds; regional components are parsed
by `componentsGo`. -/
def from_str (s : List Char) : Except Error VectorSessionToken :=
  if s = [] then .error .EmptyInput
  else
    let versionStr := s.takeWhile (fun c => !(c = '#'))
    match s.dropWhile (fun c => !(c = '#')) with
    | [] => .error .MissingComponents
    | _ :: afterFirst =>
      match parseNatFromSlice U64MAX versionStr with
      | none => .error (.InvalidVersion versionStr)
      | some version =>
        match afterFirst with
        | [] => .error .MissingComponents
        | _ :: _ =>
          let globalStr := afterFirst.takeWhile (fun c => !(c = '#'))
          match parseNatFromSlice U64MAX globalStr with
          | none => .error (.InvalidGlobalLsn globalStr)
          | some global_lsn =>
            match afterFirst.dropWhile (fun c => !(c = '#')) with
            | [] => .ok ⟨version, global_lsn, []⟩
            | _ :: tl =>
              match tl with
              | [] => .ok ⟨version, global_lsn, []⟩
              | _ :: _ =>
                match componentsGo [] [] tl with
                | .error e => .error e
                | .ok m => .ok ⟨version, global_lsn, m⟩

/-- Specification-side companion of `componentsGo` that collects the parsed
regional components in text order without the map's last-wins insertion; used
to state the duplicate-key law (the parsed map reads each key's *last*
occurrence). -/
def componentsRawGo (acc : List (Nat × Nat)) (comp : List Char) :
    List Char → Except Error (List (Nat × Nat))
  | [] =>
    match parseComponent comp with
    | .error e => .error e
    | .ok (k, v) => .ok (acc ++ [(k, v)])
  | c :: rest =>
    if c = '#' then
      match parseComponent comp with
      | .error e => .error e
      | .ok (k, v) =>
        match rest with
        | [] => .ok (acc ++ [(k, v)])
        | _ :: _ => componentsRawGo (acc ++ [(k, v)]) [] rest
    else componentsRawGo acc (comp ++ [c]) rest

/-- `from_str` with the regional components kept as the raw ordered pair list
(no deduplication): the parsed token's map is the last-wins reading of this
list. -/
def from_str_pairs (s : List Char) : Except Error (List (Nat × Nat)) :=
  if s = [] then .error .EmptyInput
  else
    let versionStr := s.takeWhile (fun c => !(c = '#'))
    match s.dropWhile (fun c => !(c = '#')) with
    | [] => .error .MissingComponents
    | _ :: afterFirst =>
      match parseNatFromSlice U64MAX versionStr with
      | none => .error (.InvalidVersion versionStr)
      | some _ =>
        match afterFirst with
        | [] => .error .MissingComponents
        | _ :: _ =>
          let globalStr := afterFirst.takeWhile (fun c => !(c = '#'))
          match parseNatFromSlice U64MAX globalStr with
          | none => .error (.InvalidGlobalLsn globalStr)
          | some _ =>
            match afterFirst.dropWhile (fun c => !(c = '#')) with
            | [] => .ok []
            | _ :: tl =>
              match tl with
              | [] => .ok []
              | _ :: _ => componentsRawGo [] [] tl

end VectorSessionToken

/-- Decimal rendering of an unsigned integer, least-significant digit first
into the accumulator: model of `write!("{}", n)` for `u64`/`u32`. -/
def toDecimalGo (n : Nat) (acc : List Char) : List Char :=
  if h : n = 0 then acc
  else toDecimalGo (n / 10) (Char.ofNat (48 + n % 10) :: acc)
termination_by n
decreasing_by exact Nat.div_lt_self (Nat.pos_of_ne_zero h) (by decide)

def toDecimal (n : Nat) : List Char :=
  if n = 0 then ['0'] else toDecimalGo n []

namespace VectorSessionToken

/-- The regional part of `Display for VectorSessionToken`: one `"#<id>=<lsn>"`
group per entry, in the map's iteration order (the entry-list order). -/
def regionsText : List (Nat × Nat) → List Char
  | [] => []
  | (k, v) :: rest => ('#' :: (toDecimal k ++ '=' :: toDecimal v)) ++ regionsText rest

/-- `Display for VectorSessionToken`: `"<version>#<global_lsn>"` followed by
the regional components. -/
def format (t : VectorSessionToken) : List Char :=
  toDecimal t.version ++ '#' :: (toDecimal t.global_lsn ++ regionsText t.regional_lsns)

/-- `HashSet` equality of the two maps' key sets, as checked by `merge`
(`self_regions != other_regions` on the `keys()` sets). -/
def regionsKeySetEq (a b : List (Nat × Nat)) : Bool :=
  a.all (fun kv => (lookupAL b kv.1).isSome) && b.all (fun kv => (lookupAL a kv.1).isSome)

/-- The body of `VectorSessionToken::merge` after the ordering step, with
`higher` and `lower` already determined.  Equal versions require equal region
key sets and combine componentwise by `max`; unequal versions keep the higher
token's version and `global_lsn` and fold the lower token's entries into the
higher token's map, updating only keys the higher map already has.  (In the
equal-version branch the source indexes `lower.regional_lsns[region_id]`,
which cannot miss because the key-set check just succeeded; the `getD 0`
default is therefore never used.) -/
def mergeOrdered (higher lower : VectorSessionToken) : Except Error VectorSessionToken :=
  if higher.version = lower.version then
    if regionsKeySetEq higher.regional_lsns lower.regional_lsns = false then
      .error (.TokensCannotBeMerged
        ("tokens have same version but different regions".toList))
    else
      .ok { version := higher.version,
            global_lsn := max higher.global_lsn lower.global_lsn,
            regional_lsns :=
              higher.regional_lsns.foldl
                (fun m kv =>
                  insertAL m kv.1 (max kv.2 ((lookupAL lower.regional_lsns kv.1).getD 0)))
                [] }
  else
    .ok { version := higher.version,
          global_lsn := higher.global_lsn,
          regional_lsns :=
            lower.regional_lsns.foldl
              (fun m kv =>
                match lookupAL m kv.1 with
                | some hv => insertAL m kv.1 (max hv kv.2)
                | none => m)
              higher.regional_lsns }

/-- `VectorSessionToken::merge`: order the pair by version
(`self.version >= other.version` keeps `(self, other)` as `(higher, lower)`),
then combine via `mergeOrdered`. -/
def merge (self other : VectorSessionToken) : Except Error VectorSessionToken :=
  if self.version ≥ other.version then mergeOrdered self other
  else mergeOrdered other self

/-- Modelled from the spec: `VectorSessionToken::can_advance_to` is exercised
by the repository's tests but its implementation is not among the provided
sources.  Following spec §4.1: a higher `other` version always advances, a
lower one never does; at equal versions the two region key sets must be
identical (else `InvalidRegions` carrying both tokens' formatted texts), and
the answer is whether `other` is componentwise at least `current` (global LSN
and every region's LSN). -/
def can_advance_to (current other : VectorSessionToken) : Except Error Bool :=
  if other.version > current.version then .ok true
  else if other.version < current.version then .ok false
  else if regionsKeySetEq current.regional_lsns other.regional_lsns = false then
    .error (.InvalidRegions (format current) (format other))
  else
    .ok (decide (current.global_lsn ≤ other.global_lsn) &&
      current.regional_lsns.all
        (fun kv => kv.2 ≤ (lookupAL other.regional_lsns kv.1).getD 0))

/-- `HashMap` well-formedness: the keys of the entry list are distinct. -/
def WF (t : VectorSessionToken) : Prop :=
  (t.regional_lsns.map Prod.fst).Nodup

instance (t : VectorSessionToken) : Decidable (WF t) := by
  unfold WF; infer_instance

/-- `PartialEq` of `VectorSessionToken`: fields equal, with the `HashMap`
compared by lookup extensionality. -/
def Equiv (a b : VectorSessionToken) : Prop :=
  a.version = b.version ∧ a.global_lsn = b.global_lsn ∧
    ∀ k, lookupAL a.regional_lsns k = lookupAL b.regional_lsns k

end VectorSessionToken

/-! ### Partition session tokens (`session/partition.rs`) -/

structure PartitionSessionToken where
  pkrange_id : List Char
  vector_token : VectorSessionToken
deriving DecidableEq, Repr

namespace PartitionSessionToken

/-- `PartitionSessionToken::from_str`: format `"<pkrange_id>:<vector_text>"`;
an empty input fails with `EmptyInput`, a missing `':'`, an empty prefix
(`colon_pos == 0`) or an empty suffix fail with `MissingComponents`; the
suffix is parsed by `VectorSessionToken::from_str`. -/
def from_str (s : List Char) : Except Error PartitionSessionToken :=
  if s = [] then .error .EmptyInput
  else
    let pkrangePart := s.takeWhile (fun c => !(c = ':'))
    match s.dropWhile (fun c => !(c = ':')) with
    | [] => .error .MissingComponents
    | _ :: vectorPart =>
      if pkrangePart = [] then .error .MissingComponents
      else if vectorPart = [] then .error .MissingComponents
      else
        match VectorSessionToken.from_str vectorPart with
        | .error e => .error e
        | .ok vt => .ok ⟨pkrangePart, vt⟩

/-- `Display for PartitionSessionToken`: `"<pkrange_id>:<vector_token>"`. -/
def format (pt : PartitionSessionToken) : List Char :=
  pt.pkrange_id ++ ':' :: pt.vector_token.format

end PartitionSessionToken

/-! ### Container sessions (`session/container.rs`).
The `RwLock<HashMap<PartitionKeyRangeId, PartitionSessionToken>>` store is
modelled as an association list keyed by the pkrange-id string; locking has no
observable effect on the sequential semantics of a single call. -/

/-- Model of `str::trim`: strip whitespace from both ends. -/
def trimChars (s : List Char) : List Char :=
  ((s.dropWhile Char.isWhitespace).reverse.dropWhile Char.isWhitespace).reverse

/-- Model of `str::split(',')`: the segments between commas, keeping empty
segments (`"".split(',')` is `[""]`). -/
def splitCommaGo (seg : List Char) : List Char → List (List Char)
  | [] => [seg]
  | c :: rest =>
    if c = ',' then seg :: splitCommaGo [] rest else splitCommaGo (seg ++ [c]) rest

def splitComma (s : List Char) : List (List Char) := splitCommaGo [] s

abbrev CStore := List (List Char × PartitionSessionToken)

namespace ContainerSession

/-- The `for token_str in token.split(',')` loop of
`ContainerSession::set_session_token`: trim each segment, skip empty ones,
parse the rest and insert keyed by `pkrange_id`; the first parse failure
returns that error, leaving the store as mutated so far. -/
def setLoop : CStore → List (List Char) → Except Error Unit × CStore
  | store, [] => (.ok (), store)
  | store, seg :: rest =>
    let s := trimChars seg
    if s = [] then setLoop store rest
    else
      match PartitionSessionToken.from_str s with
      | .error e => (.error e, store)
      | .ok pt => setLoop (insertAL store pt.pkrange_id pt) rest

/-- `ContainerSession::set_session_token`: rejects an empty input with
`EmptyInput`, otherwise runs the segment loop.  The pair returns the call's
result together with the store's post-state. -/
def set_session_token (store : CStore) (token : List Char) :
    Except Error Unit × CStore :=
  if token = [] then (.error .EmptyInput, store)
  else setLoop store (splitComma token)

/-- Lexicographic `≤` on strings: model of Rust `String` ordering used by
`tokens.sort()`. -/
def leChars : List Char → List Char → Bool
  | [], _ => true
  | _ :: _, [] => false
  | a :: moreA, b :: moreB => if a = b then leChars moreA moreB else decide (a < b)

def insertSorted (x : List Char) : List (List Char) → List (List Char)
  | [] => [x]
  | y :: ys => if leChars x y then x :: y :: ys else y :: insertSorted x ys

def sortStrings : List (List Char) → List (List Char)
  | [] => []
  | x :: xs => insertSorted x (sortStrings xs)

def joinComma : List (List Char) → List Char
  | [] => []
  | [x] => x
  | x :: y :: xs => x ++ ',' :: joinComma (y :: xs)

/-- `ContainerSession::get_session_token`: `none` when no partitions are
tracked, else the partition token texts sorted and comma-joined. -/
def get_session_token (store : CStore) : Option (List Char) :=
  if store = [] then none
  else some (joinComma (sortStrings (store.map (fun kv => kv.2.format))))

/-- `ContainerSession::get_partition_session_token`. -/
def get_partition_session_token (store : CStore) (pk : List Char) :
    Option (List Char) :=
  (lookupAL store pk).map (fun pt => pt.format)

end ContainerSession

/-! ### Session registry (`session/session.rs`): resource-id → container
store, modelled as an association list. -/

abbrev Registry := List (List Char × CStore)

namespace Session

/-- `Session::set_session_token`: an existing container entry is updated in
place; for a vacant entry the token is applied to a fresh empty container
session first and the entry is inserted only when that succeeds, so a failing
token text creates no orphaned container entry. -/
def set_session_token (sess : Registry) (container : List Char)
    (token : List Char) : Except Error Unit × Registry :=
  match lookupAL sess container with
  | some store =>
    let r := ContainerSession.set_session_token store token
    (r.1, insertAL sess container r.2)
  | none =>
    let r := ContainerSession.set_session_token [] token
    match r.1 with
    | .error e => (.error e, sess)
    | .ok _ => (.ok (), insertAL sess container r.2)

/-- `Session::get_session_token`. -/
def get_session_token (sess : Registry) (container : List Char) :
    Option (List Char) :=
  (lookupAL sess container).bind ContainerSession.get_session_token

/-- `Session::container_count`. -/
def container_count (sess : Registry) : Nat := sess.length

end Session

/-! ### Reference pipeline (`tests/mock_engine/mod.rs`).
Item payloads stay as structured `MockItem`s: `pop_item`'s
`serde_json::to_vec` serialization of a `MockItem` cannot fail and is
invisible to the claims, which only count emitted items. -/

structure MockItem where
  id : List Char
  partitionKey : List Char
  mergeOrder : Nat
deriving DecidableEq, Repr

structure PartitionState where
  pkrangeId : List Char
  started : Bool
  queue : List MockItem
  nextContinuation : Option (List Char)
deriving DecidableEq, Repr

namespace PartitionState

/-- `PartitionState::is_exhausted`. -/
def is_exhausted (p : PartitionState) : Bool :=
  p.queue.isEmpty && p.started && p.nextContinuation.isNone

end PartitionState

structure QueryRequest where
  partitionKeyRangeId : List Char
  continuation : Option (List Char)
deriving DecidableEq, Repr

structure PipelineResult where
  completed : Bool
  items : List MockItem
  requests : List QueryRequest
deriving DecidableEq, Repr

structure MockQueryPipeline where
  query : List Char
  completed : Bool
  partitionStates : List PartitionState
deriving DecidableEq, Repr

namespace MockQueryPipeline

/-- The partition scan inside `next_batch`'s `'outer` loop: walk the
partitions in order carrying the current candidate `(index, merge_order)`;
`none` models `break 'outer` at the first unstarted partition, `some low`
models the scan finishing with candidate `low`.  A non-exhausted partition
with a non-empty queue becomes the candidate when there is none yet or its
head item's `merge_order` is strictly lower. -/
def selectLowest : List PartitionState → Nat → Option (Nat × Nat) →
    Option (Option (Nat × Nat))
  | [], _, low => some low
  | p :: rest, i, low =>
    if p.started = false then none
    else if p.is_exhausted then selectLowest rest (i + 1) low
    else
      match p.queue with
      | [] => selectLowest rest (i + 1) low
      | item :: _ =>
        match low with
        | none => selectLowest rest (i + 1) (some (i, item.mergeOrder))
        | some (_, mo) =>
          if item.mergeOrder < mo then selectLowest rest (i + 1) (some (i, item.mergeOrder))
          else selectLowest rest (i + 1) low

/-- `pop_item` on the partition at index `i`: remove and return its queue's
head item. -/
def popAt (ps : List PartitionState) (i : Nat) :
    Option (MockItem × List PartitionState) :=
  match ps[i]? with
  | none => none
  | some p =>
    match p.queue with
    | [] => none
    | item :: rest => some (item, ps.set i { p with queue := rest })

def totalQueued (ps : List PartitionState) : Nat :=
  (ps.map (fun p => p.queue.length)).sum

theorem totalQueued_cons (p : PartitionState) (rest : List PartitionState) :
    totalQueued (p :: rest) = p.queue.length + totalQueued rest := by
  simp [totalQueued]

theorem popAt_totalQueued {ps : List PartitionState} {i : Nat} {item : MockItem}
    {ps' : List PartitionState} (h : popAt ps i = some (item, ps')) :
    totalQueued ps' < totalQueued ps := by
  induction ps generalizing i item ps' with
  | nil => simp [popAt] at h
  | cons p rest ih =>
    cases i with
    | zero =>
      cases hq : p.queue with
      | nil => simp [popAt, hq] at h
      | cons it qrest =>
        simp only [popAt, List.getElem?_cons_zero, List.set, hq] at h
        cases h
        simp [totalQueued_cons, hq]
    | succ j =>
      cases hg : rest[j]? with
      | none => simp [popAt, hg] at h
      | some q =>
        cases hq : q.queue with
        | nil => simp [popAt, hg, hq] at h
        | cons it qrest =>
          simp only [popAt, List.getElem?_cons_succ, List.set, hg, hq] at h
          cases h
          have := @ih j item (rest.set j { q with queue := qrest })
            (by simp [popAt, hg, hq])
          calc totalQueued (p :: rest.set j { q with queue := qrest })
              = p.queue.length + totalQueued (rest.set j { q with queue := qrest }) :=
                totalQueued_cons _ _
            _ < p.queue.length + totalQueued rest := Nat.add_lt_add_left this _
            _ = totalQueued (p :: rest) := (totalQueued_cons _ _).symm

/-- The `'outer` item-draining loop of `next_batch`: while the scan completes
with a candidate, pop its head item and append it to `items`.  (The source's
`if let Some(item) = pop_item()` cannot see `None` for a selected candidate,
whose queue is non-empty; the `none` fallback mirrors the loop making no
progress.) -/
def drainLoop (ps : List PartitionState) (items : List MockItem) :
    List PartitionState × List MockItem :=
  match selectLowest ps 0 none with
  | none => (ps, items)
  | some none => (ps, items)
  | some (some (i, _)) =>
    match h : popAt ps i with
    | none => (ps, items)
    | some (item, ps') => drainLoop ps' (items ++ [item])
termination_by totalQueued ps
decreasing_by exact popAt_totalQueued h

/-- `MockQueryPipeline::next_batch`: drain ready items, then request data for
every partition that is not yet exhausted; when a batch yields neither items
nor requests the pipeline records completion.  Returns the `PipelineResult`
together with the pipeline's post-state. -/
def next_batch (pl : MockQueryPipeline) : PipelineResult × MockQueryPipeline :=
  let drained := drainLoop pl.partitionStates []
  let items := drained.2
  let requests := drained.1.filterMap
    (fun p => if p.is_exhausted then none
      else some ⟨p.pkrangeId, p.nextContinuation⟩)
  let completed := pl.completed || (items.isEmpty && requests.isEmpty)
  (⟨completed, items, requests⟩,
    { pl with completed := completed, partitionStates := drained.1 })

end MockQueryPipeline

/-! ## Pipeline lemmas and claims C6/C7 -/

namespace MockQueryPipeline

theorem selectLowest_unstarted {ps : List PartitionState}
    (h : ∃ p ∈ ps, p.started = false) (i : Nat) (low : Option (Nat × Nat)) :
    selectLowest ps i low = none := by
  induction ps generalizing i low with
  | nil => rcases h with ⟨p, hp, _⟩; simp at hp
  | cons q rest ih =>
    rcases h with ⟨p, hp, hps⟩
    rcases List.mem_cons.mp hp with rfl | hmem
    · simp [selectLowest, hps]
    · cases hq : q.started with
      | false => simp [selectLowest, hq]
      | true =>
        have hex : ∃ p ∈ rest, p.started = false := ⟨p, hmem, hps⟩
        simp only [selectLowest, hq]
        rw [if_neg (by simp)]
        split
        · exact ih hex _ _
        · split
          · exact ih hex _ _
          · split
            · exact ih hex _ _
            · split
              · exact ih hex _ _
              · exact ih hex _ _

theorem selectLowest_exhausted {ps : List PartitionState}
    (h : ∀ p ∈ ps, p.is_exhausted = true) (i : Nat) (low : Option (Nat × Nat)) :
    selectLowest ps i low = some low := by
  induction ps generalizing i low with
  | nil => rfl
  | cons q rest ih =>
    have hq := h q (List.mem_cons_self _ _)
    have hstart : q.started = true := by
      simp [PartitionState.is_exhausted] at hq
      exact hq.1.2
    simp only [selectLowest, hstart]
    rw [if_neg (by simp), if_pos hq]
    exact ih (fun p hp => h p (List.mem_cons_of_mem _ hp)) _ _

theorem drainLoop_stuck {ps : List PartitionState} {items : List MockItem}
    (h : selectLowest ps 0 none = none ∨ selectLowest ps 0 none = some none) :
    drainLoop ps items = (ps, items) := by
  rcases h with h | h <;> (rw [drainLoop]; simp [h])

theorem drainLoop_length_le (n : Nat) :
    ∀ (ps : List PartitionState) (items : List MockItem), totalQueued ps ≤ n →
      items.length ≤ (drainLoop ps items).2.length ∧
        ((drainLoop ps items).2.length = items.length → drainLoop ps items = (ps, items)) := by
  induction n using Nat.strong_induction_on with
  | _ n ih =>
    intro ps items hle
    cases hsel : selectLowest ps 0 none with
    | none =>
      rw [drainLoop_stuck (Or.inl hsel)]
      exact ⟨le_refl _, fun _ => rfl⟩
    | some low =>
      cases low with
      | none =>
        rw [drainLoop_stuck (Or.inr hsel)]
        exact ⟨le_refl _, fun _ => rfl⟩
      | some cand =>
        rcases cand with ⟨i, mo⟩
        cases hpop : popAt ps i with
        | none =>
          have hstuck : drainLoop ps items = (ps, items) := by
            rw [drainLoop]
            simp only [hsel]
            split
            · rfl
            · rename_i item ps' hmatch
              rw [hpop] at hmatch
              exact absurd hmatch (by simp)
          rw [hstuck]
          exact ⟨le_refl _, fun _ => rfl⟩
        | some popped =>
          have hstep : drainLoop ps items = drainLoop popped.2 (items ++ [popped.1]) := by
            rw [drainLoop]
            simp only [hsel]
            split
            · rename_i hmatch
              rw [hpop] at hmatch
              exact absurd hmatch (by simp)
            · rename_i item ps' hmatch
              rw [hpop] at hmatch
              injection hmatch with hm
              rw [hm]
          have hlt : totalQueued popped.2 < totalQueued ps :=
            @popAt_totalQueued ps i popped.1 popped.2 (by rw [hpop])
          have hle' : totalQueued popped.2 < n := Nat.lt_of_lt_of_le hlt hle
          have hrec := ih (totalQueued popped.2) hle' popped.2 (items ++ [popped.1]) (le_refl _)
          rw [hstep]
          constructor
          · calc items.length ≤ items.length + 1 := Nat.le_succ _
              _ = (items ++ [popped.1]).length := by simp
              _ ≤ _ := hrec.1
          · intro heq
            have : items.length + 1 ≤ items.length := by
              calc items.length + 1 = (items ++ [popped.1]).length := by simp
                _ ≤ (drainLoop popped.2 (items ++ [popped.1])).2.length := hrec.1
                _ = items.length := heq
            omega

theorem drainLoop_items_nil {ps : List PartitionState}
    (h : (drainLoop ps []).2 = []) : drainLoop ps [] = (ps, []) := by
  have := (drainLoop_length_le (totalQueued ps) ps [] (le_refl _)).2
  have hlen : (drainLoop ps []).2.length = ([] : List MockItem).length := by
    rw [h]
  exact this hlen

/-- C6: whenever `next_batch` runs while at least one partition has not
started, it emits no items at all, regardless of what other partitions have
buffered: the `'outer` scan breaks at the unstarted partition before any item
is popped. -/
theorem next_batch_no_items_if_unstarted (pl : MockQueryPipeline)
    (h : ∃ p ∈ pl.partitionStates, p.started = false) :
    (next_batch pl).1.items = [] := by
  have hsel := selectLowest_unstarted h 0 none
  have hd := @drainLoop_stuck pl.partitionStates [] (Or.inl hsel)
  simp [next_batch, hd]

/-- Witness for C6: partition `"a"` has two buffered items but partition
`"b"` has not started, so the batch emits nothing. -/
theorem next_batch_no_items_if_unstarted_witness :
    (next_batch ⟨"q".toList, false,
        [⟨"a".toList, true, [⟨"i1".toList, "pk".toList, 5⟩, ⟨"i2".toList, "pk".toList, 7⟩], none⟩,
         ⟨"b".toList, false, [], none⟩]⟩).1.items = [] :=
  next_batch_no_items_if_unstarted _ (by decide)

/-- C7: a `next_batch` call returns no items and no requests exactly when
every partition is exhausted on entry; consequently, on any call entered with
the completion flag still unset, the returned `completed` flag is true exactly
when every partition was exhausted on entry, equivalently exactly when the
result carries no items and no requests. -/
theorem next_batch_completed_iff (pl : MockQueryPipeline) :
    ((next_batch pl).1.items = [] ∧ (next_batch pl).1.requests = [] ↔
      ∀ p ∈ pl.partitionStates, p.is_exhausted = true) ∧
    (pl.completed = false →
      ((next_batch pl).1.completed = true ↔
        ∀ p ∈ pl.partitionStates, p.is_exhausted = true)) ∧
    (pl.completed = false →
      ((next_batch pl).1.completed = true ↔
        (next_batch pl).1.items = [] ∧ (next_batch pl).1.requests = [])) := by
  have hfirst : (next_batch pl).1.items = [] ∧ (next_batch pl).1.requests = [] ↔
      ∀ p ∈ pl.partitionStates, p.is_exhausted = true := by
    constructor
    · rintro ⟨hitems, hreq⟩
      have hitems' : (drainLoop pl.partitionStates []).2 = [] := by
        simpa [next_batch] using hitems
      have hd := drainLoop_items_nil hitems'
      have hreq' : (drainLoop pl.partitionStates []).1.filterMap
          (fun p => if p.is_exhausted then none
            else some (⟨p.pkrangeId, p.nextContinuation⟩ : QueryRequest)) = [] := by
        simpa [next_batch] using hreq
      rw [hd] at hreq'
      intro p hp
      have := List.filterMap_eq_nil_iff.mp hreq' p hp
      by_contra hcon
      simp [hcon] at this
    · intro hex
      have hsel := selectLowest_exhausted hex 0 none
      have hd := @drainLoop_stuck pl.partitionStates [] (Or.inr hsel)
      constructor
      · simp [next_batch, hd]
      · simp only [next_batch, hd]
        simp only [List.filterMap_eq_nil_iff]
        intro p hp
        simp [hex p hp]
  refine ⟨hfirst, ?_, ?_⟩
  · intro hc
    have hcomp : (next_batch pl).1.completed =
        ((next_batch pl).1.items.isEmpty && (next_batch pl).1.requests.isEmpty) := by
      simp [next_batch, hc]
    rw [hcomp]
    rw [Bool.and_eq_true, List.isEmpty_iff, List.isEmpty_iff]
    exact hfirst
  · intro hc
    have hcomp : (next_batch pl).1.completed =
        ((next_batch pl).1.items.isEmpty && (next_batch pl).1.requests.isEmpty) := by
      simp [next_batch, hc]
    rw [hcomp]
    rw [Bool.and_eq_true, List.isEmpty_iff, List.isEmpty_iff]

/-- Witness for C7: a pipeline whose single partition is exhausted, entered
with the completion flag unset. -/
theorem next_batch_completed_iff_witness :
    (((next_batch ⟨"q".toList, false, [⟨"a".toList, true, [], none⟩]⟩).1.items = [] ∧
        (next_batch ⟨"q".toList, false, [⟨"a".toList, true, [], none⟩]⟩).1.requests = [] ↔
      ∀ p ∈ [(⟨"a".toList, true, [], none⟩ : PartitionState)], p.is_exhausted = true)) ∧
    ((next_batch ⟨"q".toList, false, [⟨"a".toList, true, [], none⟩]⟩).1.completed = true ↔
      ∀ p ∈ [(⟨"a".toList, true, [], none⟩ : PartitionState)], p.is_exhausted = true) ∧
    ((next_batch ⟨"q".toList, false, [⟨"a".toList, true, [], none⟩]⟩).1.completed = true ↔
      (next_batch ⟨"q".toList, false, [⟨"a".toList, true, [], none⟩]⟩).1.items = [] ∧
        (next_batch ⟨"q".toList, false, [⟨"a".toList, true, [], none⟩]⟩).1.requests = []) := by
  have h := next_batch_completed_iff ⟨"q".toList, false, [⟨"a".toList, true, [], none⟩]⟩
  exact ⟨h.1, h.2.1 rfl, h.2.2 rfl⟩

end MockQueryPipeline

/-! ## Association-list lemmas -/

theorem lookupAL_insert_self {α β : Type} [DecidableEq α]
    (m : List (α × β)) (k : α) (v : β) :
    lookupAL (insertAL m k v) k = some v := by
  induction m with
  | nil => simp [insertAL, lookupAL]
  | cons kv rest ih =>
    by_cases h : kv.1 = k
    · simp [insertAL, lookupAL, h]
    · simp [insertAL, lookupAL, h, ih]

theorem lookupAL_insert_ne {α β : Type} [DecidableEq α]
    (m : List (α × β)) (k k' : α) (v : β) (hne : k' ≠ k) :
    lookupAL (insertAL m k v) k' = lookupAL m k' := by
  induction m with
  | nil => simp [insertAL, lookupAL, Ne.symm hne]
  | cons kv rest ih =>
    by_cases h : kv.1 = k
    · subst h
      simp [insertAL, lookupAL, Ne.symm hne]
    · simp only [insertAL, lookupAL, if_neg h]
      by_cases h2 : kv.1 = k'
      · simp [h2]
      · simp [h2, ih]

theorem lookupAL_eq_none_iff {α β : Type} [DecidableEq α]
    (m : List (α × β)) (k : α) :
    lookupAL m k = none ↔ k ∉ m.map Prod.fst := by
  induction m with
  | nil => simp [lookupAL]
  | cons kv rest ih =>
    by_cases h : kv.1 = k
    · simp [lookupAL, h]
    · simp [lookupAL, h, ih, Ne.symm h]

theorem lookupAL_isSome_iff {α β : Type} [DecidableEq α]
    (m : List (α × β)) (k : α) :
    (lookupAL m k).isSome = true ↔ k ∈ m.map Prod.fst := by
  rw [← Decidable.not_iff_not, ← lookupAL_eq_none_iff]
  cases lookupAL m k <;> simp

theorem lookupAL_mem {α β : Type} [DecidableEq α]
    {m : List (α × β)} {k : α} {v : β} (h : lookupAL m k = some v) :
    (k, v) ∈ m := by
  induction m with
  | nil => simp [lookupAL] at h
  | cons kv rest ih =>
    by_cases hk : kv.1 = k
    · subst hk
      simp only [lookupAL, if_pos rfl] at h
      cases h
      exact List.mem_cons_self _ _
    · simp only [lookupAL, if_neg hk] at h
      exact List.mem_cons_of_mem _ (ih h)

theorem mem_lookupAL_isSome {α β : Type} [DecidableEq α]
    {m : List (α × β)} {kv : α × β} (h : kv ∈ m) :
    (lookupAL m kv.1).isSome = true := by
  rw [lookupAL_isSome_iff]
  exact List.mem_map_of_mem Prod.fst h

theorem lookupAL_of_mem_nodup {α β : Type} [DecidableEq α]
    {m : List (α × β)} (hn : (m.map Prod.fst).Nodup)
    {kv : α × β} (h : kv ∈ m) :
    lookupAL m kv.1 = some kv.2 := by
  induction m with
  | nil => simp at h
  | cons kv0 rest ih =>
    simp only [List.map_cons, List.nodup_cons] at hn
    rcases List.mem_cons.mp h with h0 | h0
    · subst h0
      simp [lookupAL]
    · have hne : kv0.1 ≠ kv.1 := by
        intro he
        exact hn.1 (he ▸ List.mem_map_of_mem Prod.fst h0)
      simp [lookupAL, hne, ih hn.2 h0]

theorem insertAL_mem {α β : Type} [DecidableEq α]
    {m : List (α × β)} {k : α} {v : β} {kv : α × β}
    (h : kv ∈ insertAL m k v) : kv ∈ m ∨ kv = (k, v) := by
  induction m with
  | nil => simp [insertAL] at h; simp [h]
  | cons kv0 rest ih =>
    by_cases h0 : kv0.1 = k
    · simp only [insertAL, if_pos h0] at h
      rcases List.mem_cons.mp h with h | h
      · right; exact h
      · left; exact List.mem_cons_of_mem _ h
    · simp only [insertAL, if_neg h0] at h
      rcases List.mem_cons.mp h with h | h
      · left; simp [h]
      · rcases ih h with hh | hh
        · left; exact List.mem_cons_of_mem _ hh
        · right; exact hh

theorem insertAL_keys_mem {α β : Type} [DecidableEq α]
    {m : List (α × β)} {k x : α} {v : β}
    (h : x ∈ (insertAL m k v).map Prod.fst) :
    x ∈ m.map Prod.fst ∨ x = k := by
  rcases List.mem_map.mp h with ⟨kv, hkv, hx⟩
  rcases insertAL_mem hkv with hh | hh
  · left; exact hx ▸ List.mem_map_of_mem Prod.fst hh
  · right; rw [← hx, hh]

theorem insertAL_nodup {α β : Type} [DecidableEq α]
    {m : List (α × β)} (hn : (m.map Prod.fst).Nodup) (k : α) (v : β) :
    ((insertAL m k v).map Prod.fst).Nodup := by
  induction m with
  | nil => simp [insertAL]
  | cons kv rest ih =>
    simp only [List.map_cons, List.nodup_cons] at hn
    by_cases h : kv.1 = k
    · subst h
      simpa [insertAL, List.nodup_cons] using hn
    · simp only [insertAL, if_neg h, List.map_cons, List.nodup_cons]
      refine ⟨?_, ih hn.2⟩
      intro hmem
      rcases insertAL_keys_mem hmem with hh | hh
      · exact hn.1 hh
      · exact h hh

/-! ## Merge and advance lemmas, claims C1/C2/C3 -/

theorem lookupAL_foldl_insert (g : Nat → Nat → Nat) :
    ∀ (l m0 : List (Nat × Nat)) (k : Nat), (l.map Prod.fst).Nodup →
      lookupAL (l.foldl (fun m kv => insertAL m kv.1 (g kv.1 kv.2)) m0) k =
        match lookupAL l k with
        | some v => some (g k v)
        | none => lookupAL m0 k := by
  intro l
  induction l with
  | nil => intro m0 k _; rfl
  | cons kv rest ih =>
    intro m0 k hn
    simp only [List.map_cons, List.nodup_cons] at hn
    rw [List.foldl_cons, ih _ k hn.2]
    by_cases hk : kv.1 = k
    · subst hk
      have hnone : lookupAL rest kv.1 = none :=
        (lookupAL_eq_none_iff rest kv.1).mpr hn.1
      rw [hnone]
      simp [lookupAL, lookupAL_insert_self]
    · have hcons : lookupAL (kv :: rest) k = lookupAL rest k := by
        simp [lookupAL, hk]
      rw [hcons]
      cases hrk : lookupAL rest k with
      | some v => rfl
      | none =>
        simp only []
        exact lookupAL_insert_ne m0 kv.1 k _ (fun hc => hk hc.symm)

theorem lookupAL_foldl_maxUpdate :
    ∀ (lo hi : List (Nat × Nat)) (k : Nat), (lo.map Prod.fst).Nodup →
      lookupAL (lo.foldl (fun m kv =>
          match lookupAL m kv.1 with
          | some hv => insertAL m kv.1 (max hv kv.2)
          | none => m) hi) k =
        match lookupAL hi k, lookupAL lo k with
        | some hv, some lv => some (max hv lv)
        | some hv, none => some hv
        | none, _ => none := by
  intro lo
  induction lo with
  | nil =>
    intro hi k _
    simp only [List.foldl_nil]
    cases lookupAL hi k <;> rfl
  | cons kv rest ih =>
    intro hi k hn
    simp only [List.map_cons, List.nodup_cons] at hn
    rw [List.foldl_cons, ih _ k hn.2]
    by_cases hk : kv.1 = k
    · subst hk
      have hrest : lookupAL rest kv.1 = none :=
        (lookupAL_eq_none_iff rest kv.1).mpr hn.1
      have hcons : lookupAL (kv :: rest) kv.1 = some kv.2 := by
        simp [lookupAL]
      rw [hrest, hcons]
      cases hhi : lookupAL hi kv.1 with
      | none => simp [hhi]
      | some hv => simp [hhi, lookupAL_insert_self]
    · have hcons : lookupAL (kv :: rest) k = lookupAL rest k := by
        simp [lookupAL, hk]
      rw [hcons]
      have hstep : lookupAL
          (match lookupAL hi kv.1 with
            | some hv => insertAL hi kv.1 (max hv kv.2)
            | none => hi) k = lookupAL hi k := by
        cases hhi : lookupAL hi kv.1 with
        | none => rfl
        | some hv => exact lookupAL_insert_ne hi kv.1 k _ (fun hc => hk hc.symm)
      rw [hstep]

theorem regionsKeySetEq_iff (a b : List (Nat × Nat)) :
    VectorSessionToken.regionsKeySetEq a b = true ↔
      ∀ k, (lookupAL a k).isSome = (lookupAL b k).isSome := by
  unfold VectorSessionToken.regionsKeySetEq
  rw [Bool.and_eq_true, List.all_eq_true, List.all_eq_true]
  constructor
  · rintro ⟨h1, h2⟩ k
    cases ha : lookupAL a k with
    | some v =>
      have := h1 (k, v) (lookupAL_mem ha)
      simp only at this
      rw [this]
      simp
    | none =>
      cases hb : lookupAL b k with
      | none => rfl
      | some w =>
        have := h2 (k, w) (lookupAL_mem hb)
        simp only at this
        rw [ha] at this
        simp at this
  · intro h
    constructor
    · intro kv hkv
      have h1 := mem_lookupAL_isSome hkv
      rw [h kv.1] at h1
      simpa using h1
    · intro kv hkv
      have h1 := mem_lookupAL_isSome hkv
      rw [← h kv.1] at h1
      simpa using h1

theorem regionsKeySetEq_symm (a b : List (Nat × Nat)) :
    VectorSessionToken.regionsKeySetEq a b = VectorSessionToken.regionsKeySetEq b a := by
  unfold VectorSessionToken.regionsKeySetEq
  exact Bool.and_comm _ _

namespace VectorSessionToken

theorem Equiv.refl (t : VectorSessionToken) : t.Equiv t := ⟨rfl, rfl, fun _ => rfl⟩

/-- C2: the result of a successful `merge`.  Equal versions: that version, the
max of the global LSNs, the common region key-set with per-region maxima.
Unequal versions: the strictly-higher-version token's version and global LSN
verbatim, exactly its region key-set, per-region maxima where the lower token
also has the region, regions only in the lower token dropped. -/
theorem merge_spec (a b t : VectorSessionToken) (ha : a.WF) (hb : b.WF)
    (h : merge a b = .ok t) :
    (a.version = b.version →
      t.version = a.version ∧ t.global_lsn = max a.global_lsn b.global_lsn ∧
      ∀ k, lookupAL t.regional_lsns k =
        match lookupAL a.regional_lsns k, lookupAL b.regional_lsns k with
        | some va, some vb => some (max va vb)
        | _, _ => none) ∧
    (b.version < a.version →
      t.version = a.version ∧ t.global_lsn = a.global_lsn ∧
      ∀ k, lookupAL t.regional_lsns k =
        match lookupAL a.regional_lsns k, lookupAL b.regional_lsns k with
        | some vh, some vl => some (max vh vl)
        | some vh, none => some vh
        | none, _ => none) ∧
    (a.version < b.version →
      t.version = b.version ∧ t.global_lsn = b.global_lsn ∧
      ∀ k, lookupAL t.regional_lsns k =
        match lookupAL b.regional_lsns k, lookupAL a.regional_lsns k with
        | some vh, some vl => some (max vh vl)
        | some vh, none => some vh
        | none, _ => none) := by
  refine ⟨?_, ?_, ?_⟩
  · intro heq
    have hge : a.version ≥ b.version := Nat.le_of_eq heq.symm
    rw [merge, if_pos hge, mergeOrdered, if_pos heq] at h
    cases hks : regionsKeySetEq a.regional_lsns b.regional_lsns with
    | false => rw [if_pos hks] at h; exact absurd h (by simp)
    | true =>
      rw [if_neg (by simp [hks])] at h
      injection h with h
      subst h
      refine ⟨rfl, rfl, fun k => ?_⟩
      show lookupAL (a.regional_lsns.foldl
        (fun m kv => insertAL m kv.1
          (max kv.2 ((lookupAL b.regional_lsns kv.1).getD 0))) []) k = _
      rw [lookupAL_foldl_insert (fun k v => max v ((lookupAL b.regional_lsns k).getD 0))
        a.regional_lsns [] k ha]
      have hsome := (regionsKeySetEq_iff _ _).mp hks k
      cases hak : lookupAL a.regional_lsns k with
      | none =>
        rw [hak] at hsome
        cases hbk : lookupAL b.regional_lsns k with
        | none => rfl
        | some w => rw [hbk] at hsome; simp at hsome
      | some v =>
        rw [hak] at hsome
        cases hbk : lookupAL b.regional_lsns k with
        | none => rw [hbk] at hsome; simp at hsome
        | some w => simp [hbk]
  · intro hlt
    have hge : a.version ≥ b.version := Nat.le_of_lt hlt
    rw [merge, if_pos hge, mergeOrdered, if_neg (by omega)] at h
    injection h with h
    subst h
    exact ⟨rfl, rfl, fun k => lookupAL_foldl_maxUpdate b.regional_lsns a.regional_lsns k hb⟩
  · intro hlt
    rw [merge, if_neg (by omega), mergeOrdered, if_neg (by omega)] at h
    injection h with h
    subst h
    exact ⟨rfl, rfl, fun k => lookupAL_foldl_maxUpdate a.regional_lsns b.regional_lsns k ha⟩

/-- Witness for C2 at the tokens `2#1000#100=500#200=600` and
`2#1200#100=800#200=400`. -/
theorem merge_spec_witness :
    (2 : Nat) = 2 ∧ (1200 : Nat) = max 1000 1200 ∧
      ∀ k, lookupAL [(100, 800), (200, 600)] k =
        match lookupAL [(100, 500), (200, 600)] k, lookupAL [(100, 800), (200, 400)] k with
        | some va, some vb => some (max va vb)
        | _, _ => none :=
  (merge_spec ⟨2, 1000, [(100, 500), (200, 600)]⟩ ⟨2, 1200, [(100, 800), (200, 400)]⟩
    ⟨2, 1200, [(100, 800), (200, 600)]⟩ (by decide) (by decide) (by decide)).1 rfl

/-- C3: `merge` is commutative: for every pair of well-formed tokens the two
orders agree, producing the same error when unmergeable and `PartialEq`-equal
result tokens when mergeable. -/
theorem merge_commutative (a b : VectorSessionToken) (ha : a.WF) (hb : b.WF) :
    (∃ e, merge a b = .error e ∧ merge b a = .error e) ∨
    (∃ t1 t2, merge a b = .ok t1 ∧ merge b a = .ok t2 ∧ t1.Equiv t2) := by
  rcases Nat.lt_trichotomy a.version b.version with hlt | heq | hgt
  · have hsame : merge a b = merge b a := by
      rw [merge, if_neg (by omega : ¬ a.version ≥ b.version)]
      rw [merge, if_pos (by omega : b.version ≥ a.version)]
    obtain ⟨r, hr⟩ : ∃ r, merge a b = r := ⟨_, rfl⟩
    cases r with
    | error e => exact Or.inl ⟨e, hr, hsame.symm.trans hr⟩
    | ok t => exact Or.inr ⟨t, t, hr, hsame.symm.trans hr, Equiv.refl t⟩
  · have hge1 : a.version ≥ b.version := Nat.le_of_eq heq.symm
    have hge2 : b.version ≥ a.version := Nat.le_of_eq heq
    have h1 : merge a b = mergeOrdered a b := by rw [merge, if_pos hge1]
    have h2 : merge b a = mergeOrdered b a := by rw [merge, if_pos hge2]
    cases hks : regionsKeySetEq a.regional_lsns b.regional_lsns with
    | false =>
      have hks' : regionsKeySetEq b.regional_lsns a.regional_lsns = false := by
        rw [regionsKeySetEq_symm]; exact hks
      refine Or.inl ⟨.TokensCannotBeMerged
        ("tokens have same version but different regions".toList), ?_, ?_⟩
      · rw [h1, mergeOrdered, if_pos heq, if_pos hks]
      · rw [h2, mergeOrdered, if_pos heq.symm, if_pos hks']
    | true =>
      have hks' : regionsKeySetEq b.regional_lsns a.regional_lsns = true := by
        rw [regionsKeySetEq_symm]; exact hks
      refine Or.inr ⟨⟨a.version, max a.global_lsn b.global_lsn,
          a.regional_lsns.foldl (fun m kv => insertAL m kv.1
            (max kv.2 ((lookupAL b.regional_lsns kv.1).getD 0))) []⟩,
        ⟨b.version, max b.global_lsn a.global_lsn,
          b.regional_lsns.foldl (fun m kv => insertAL m kv.1
            (max kv.2 ((lookupAL a.regional_lsns kv.1).getD 0))) []⟩, ?_, ?_, ?_⟩
      · rw [h1, mergeOrdered, if_pos heq, if_neg (by simp [hks])]
      · rw [h2, mergeOrdered, if_pos heq.symm, if_neg (by simp [hks'])]
      · refine ⟨heq, Nat.max_comm _ _, fun k => ?_⟩
        show lookupAL (a.regional_lsns.foldl
          (fun m kv => insertAL m kv.1
            (max kv.2 ((lookupAL b.regional_lsns kv.1).getD 0))) []) k =
          lookupAL (b.regional_lsns.foldl
            (fun m kv => insertAL m kv.1
              (max kv.2 ((lookupAL a.regional_lsns kv.1).getD 0))) []) k
        rw [lookupAL_foldl_insert (fun k v => max v ((lookupAL b.regional_lsns k).getD 0))
          a.regional_lsns [] k ha]
        rw [lookupAL_foldl_insert (fun k v => max v ((lookupAL a.regional_lsns k).getD 0))
          b.regional_lsns [] k hb]
        have hsome := (regionsKeySetEq_iff _ _).mp hks k
        cases hak : lookupAL a.regional_lsns k with
        | none =>
          rw [hak] at hsome
          cases hbk : lookupAL b.regional_lsns k with
          | none => rfl
          | some w => rw [hbk] at hsome; simp at hsome
        | some v =>
          rw [hak] at hsome
          cases hbk : lookupAL b.regional_lsns k with
          | none => rw [hbk] at hsome; simp at hsome
          | some w => simp [hbk, hak, Nat.max_comm]
  · have hsame : merge a b = merge b a := by
      rw [merge, if_pos (by omega : a.version ≥ b.version)]
      rw [merge, if_neg (by omega : ¬ b.version ≥ a.version)]
    obtain ⟨r, hr⟩ : ∃ r, merge a b = r := ⟨_, rfl⟩
    cases r with
    | error e => exact Or.inl ⟨e, hr, hsame.symm.trans hr⟩
    | ok t => exact Or.inr ⟨t, t, hr, hsame.symm.trans hr, Equiv.refl t⟩

/-- Witness for C3 at the tokens `2#1000#100=500` and `2#1200#200=600`
(unmergeable: same version, different regions). -/
theorem merge_commutative_witness :
    (∃ e, merge ⟨2, 1000, [(100, 500)]⟩ ⟨2, 1200, [(200, 600)]⟩ = .error e ∧
      merge ⟨2, 1200, [(200, 600)]⟩ ⟨2, 1000, [(100, 500)]⟩ = .error e) ∨
    (∃ t1 t2, merge ⟨2, 1000, [(100, 500)]⟩ ⟨2, 1200, [(200, 600)]⟩ = .ok t1 ∧
      merge ⟨2, 1200, [(200, 600)]⟩ ⟨2, 1000, [(100, 500)]⟩ = .ok t2 ∧ t1.Equiv t2) :=
  merge_commutative ⟨2, 1000, [(100, 500)]⟩ ⟨2, 1200, [(200, 600)]⟩ (by decide) (by decide)

/-- C1 (spec-modelled `can_advance_to`): a strictly newer `other` version
always advances; a strictly older one never does; at equal versions a region
key-set mismatch fails with `InvalidRegions` carrying both formatted token
texts, and otherwise the answer is true exactly when `other`'s global LSN and
every common region's LSN are at least `current`'s. -/
theorem can_advance_to_spec (cur oth : VectorSessionToken)
    (hcur : cur.WF) (hoth : oth.WF) :
    (cur.version < oth.version → can_advance_to cur oth = .ok true) ∧
    (oth.version < cur.version → can_advance_to cur oth = .ok false) ∧
    (oth.version = cur.version →
      ¬ (∀ k, (lookupAL cur.regional_lsns k).isSome =
          (lookupAL oth.regional_lsns k).isSome) →
      can_advance_to cur oth = .error (.InvalidRegions cur.format oth.format)) ∧
    (oth.version = cur.version →
      (∀ k, (lookupAL cur.regional_lsns k).isSome =
        (lookupAL oth.regional_lsns k).isSome) →
      (can_advance_to cur oth = .ok true ↔
        (cur.global_lsn ≤ oth.global_lsn ∧
          ∀ k v, lookupAL cur.regional_lsns k = some v →
            ∃ w, lookupAL oth.regional_lsns k = some w ∧ v ≤ w))) := by
  refine ⟨?_, ?_, ?_, ?_⟩
  · intro hlt
    rw [can_advance_to, if_pos hlt]
  · intro hlt
    rw [can_advance_to, if_neg (by omega), if_pos hlt]
  · intro heq hne
    have hks : regionsKeySetEq cur.regional_lsns oth.regional_lsns = false := by
      cases hks : regionsKeySetEq cur.regional_lsns oth.regional_lsns with
      | false => rfl
      | true => exact absurd ((regionsKeySetEq_iff _ _).mp hks) hne
    rw [can_advance_to, if_neg (by omega), if_neg (by omega), if_pos hks]
  · intro heq hkeys
    have hks : regionsKeySetEq cur.regional_lsns oth.regional_lsns = true :=
      (regionsKeySetEq_iff _ _).mpr hkeys
    rw [can_advance_to, if_neg (by omega), if_neg (by omega), if_neg (by simp [hks])]
    constructor
    · intro h
      injection h with h
      rw [Bool.and_eq_true, decide_eq_true_eq, List.all_eq_true] at h
      refine ⟨h.1, fun k v hv => ?_⟩
      have hmem := lookupAL_mem hv
      have hle := h.2 (k, v) hmem
      rw [decide_eq_true_eq] at hle
      have hsome := hkeys k
      rw [hv] at hsome
      cases hw : lookupAL oth.regional_lsns k with
      | none => rw [hw] at hsome; simp at hsome
      | some w =>
        refine ⟨w, rfl, ?_⟩
        rw [hw] at hle
        simpa using hle
    · rintro ⟨hg, hr⟩
      have : (decide (cur.global_lsn ≤ oth.global_lsn) &&
          cur.regional_lsns.all
            (fun kv => kv.2 ≤ (lookupAL oth.regional_lsns kv.1).getD 0)) = true := by
        rw [Bool.and_eq_true, decide_eq_true_eq, List.all_eq_true]
        refine ⟨hg, fun kv hkv => ?_⟩
        have hv := lookupAL_of_mem_nodup hcur hkv
        rcases hr kv.1 kv.2 hv with ⟨w, hw, hle⟩
        rw [hw]
        simpa using hle
      rw [this]

/-- Witness for C1 at `1#1000#100=500` and `1#1000#100=1000` (equal versions,
matching region key-sets). -/
theorem can_advance_to_spec_witness :
    can_advance_to ⟨1, 1000, [(100, 500)]⟩ ⟨1, 1000, [(100, 1000)]⟩ = .ok true ↔
      ((1000 : Nat) ≤ 1000 ∧
        ∀ k v, lookupAL [(100, 500)] k = some v →
          ∃ w, lookupAL [(100, 1000)] k = some w ∧ v ≤ w) :=
  (can_advance_to_spec ⟨1, 1000, [(100, 500)]⟩ ⟨1, 1000, [(100, 1000)]⟩
    (by decide) (by decide)).2.2.2 rfl
    ((regionsKeySetEq_iff [(100, 500)] [(100, 1000)]).mp (by decide))

end VectorSessionToken

/-! ## Scanning helper lemmas -/

theorem takeWhile_append_all {p : Char → Bool} {l1 : List Char} (l2 : List Char)
    (h : ∀ c ∈ l1, p c = true) :
    (l1 ++ l2).takeWhile p = l1 ++ l2.takeWhile p := by
  induction l1 with
  | nil => simp
  | cons c cs ih =>
    have hc := h c (List.mem_cons_self _ _)
    simp only [List.cons_append, List.takeWhile_cons, hc]
    rw [ih fun x hx => h x (List.mem_cons_of_mem _ hx)]
    rfl

theorem dropWhile_append_all {p : Char → Bool} {l1 : List Char} (l2 : List Char)
    (h : ∀ c ∈ l1, p c = true) :
    (l1 ++ l2).dropWhile p = l2.dropWhile p := by
  induction l1 with
  | nil => simp
  | cons c cs ih =>
    have hc := h c (List.mem_cons_self _ _)
    simp only [List.cons_append, List.dropWhile_cons, hc]
    exact ih fun x hx => h x (List.mem_cons_of_mem _ hx)

theorem dropWhile_head_false {p : Char → Bool} {s : List Char} {c : Char}
    {rest : List Char} (h : s.dropWhile p = c :: rest) : p c = false := by
  induction s with
  | nil => simp at h
  | cons x xs ih =>
    rw [List.dropWhile_cons] at h
    by_cases hx : p x = true
    · rw [if_pos hx] at h
      exact ih h
    · rw [if_neg hx] at h
      cases h
      simpa using hx

theorem mem_takeWhile_pred {p : Char → Bool} {s : List Char} {c : Char}
    (h : c ∈ s.takeWhile p) : p c = true := by
  induction s with
  | nil => simp at h
  | cons x xs ih =>
    rw [List.takeWhile_cons] at h
    by_cases hx : p x = true
    · rw [if_pos hx] at h
      rcases List.mem_cons.mp h with rfl | h
      · exact hx
      · exact ih h
    · rw [if_neg hx] at h
      simp at h

/-! ## Claim C5 (corrected): parse error boundaries -/

theorem parseComponent_error_shape {comp : List Char} {e : Error}
    (h : VectorSessionToken.parseComponent comp = .error e) :
    (∃ c, e = .MalformedRegionalComponent c) ∨ (∃ c, e = .InvalidRegionId c) ∨
      (∃ c, e = .InvalidRegionLsn c) := by
  unfold VectorSessionToken.parseComponent at h
  dsimp only at h
  repeat' split at h
  all_goals
    first
      | exact Except.noConfusion h
      | (injection h; subst_vars; simp)

theorem componentsGo_error_shape :
    ∀ (s : List Char) (m : List (Nat × Nat)) (comp : List Char) (e : Error),
      VectorSessionToken.componentsGo m comp s = .error e →
      (∃ c, e = .MalformedRegionalComponent c) ∨ (∃ c, e = .InvalidRegionId c) ∨
        (∃ c, e = .InvalidRegionLsn c) := by
  intro s
  induction s with
  | nil =>
    intro m comp e h
    rw [VectorSessionToken.componentsGo] at h
    split at h
    · rename_i he
      injection h with h
      subst h
      exact parseComponent_error_shape he
    · exact absurd h (by simp)
  | cons c rest ih =>
    intro m comp e h
    rw [VectorSessionToken.componentsGo] at h
    by_cases hc : c = '#'
    · rw [if_pos hc] at h
      split at h
      · rename_i he
        injection h with h
        subst h
        exact parseComponent_error_shape he
      · rename_i k v he
        cases rest with
        | nil => exact absurd h (by simp)
        | cons c2 rest2 => exact ih _ _ _ h
    · rw [if_neg hc] at h
      exact ih _ _ _ h

/-- C5 counterexample: two inputs whose global-LSN segment (the text between
the first `'#'` and the second `'#'` or end of input) is empty, yet parsing
does not fail with `MissingComponents` as the claim states: `"1##1"` fails
with `InvalidGlobalLsn ""` (the `MissingComponents` check only fires when
nothing at all follows the first `'#'`), and `"x#"` fails with
`InvalidVersion "x"` (the version is parsed before that check). -/
theorem parse_empty_global_counterexample :
    (VectorSessionToken.from_str ("1##1".toList) = .error (.InvalidGlobalLsn []) ∧
      VectorSessionToken.from_str ("1##1".toList) ≠ .error .MissingComponents) ∧
    (VectorSessionToken.from_str ("x#".toList) = .error (.InvalidVersion ['x']) ∧
      VectorSessionToken.from_str ("x#".toList) ≠ .error .MissingComponents) := by
  decide

/-- C5 (amended): parse fails with `EmptyInput` exactly when the input is
empty, and fails with `MissingComponents` exactly when the non-empty input
either contains no `'#'` at all, or ends immediately after its first `'#'`
*and* the version segment before that `'#'` parses as a `u64` (the version is
parsed before the missing-global check, so a bad version segment yields
`InvalidVersion` instead); an empty global-LSN segment followed by a second
`'#'` instead yields `InvalidGlobalLsn ""`. -/
theorem parse_error_boundaries (s : List Char) :
    (VectorSessionToken.from_str s = .error .EmptyInput ↔ s = []) ∧
    (VectorSessionToken.from_str s = .error .MissingComponents ↔
      (s ≠ [] ∧ (('#' ∉ s) ∨ ∃ v, ('#' ∉ v) ∧
        (parseNatFromSlice U64MAX v).isSome ∧ s = v ++ ['#']))) := by
  by_cases hs : s = []
  · subst hs
    constructor
    · constructor
      · intro _; rfl
      · intro _; rfl
    · constructor
      · intro h
        rw [VectorSessionToken.from_str] at h
        simp at h
      · rintro ⟨h, _⟩
        exact absurd rfl h
  · cases hdrop : s.dropWhile (fun c => !(c = '#')) with
    | nil =>
      have hres : VectorSessionToken.from_str s = .error .MissingComponents := by
        rw [VectorSessionToken.from_str, if_neg hs, hdrop]
      have hnotin : '#' ∉ s := by
        intro hmem
        have hall := List.dropWhile_eq_nil_iff.mp hdrop
        have := hall _ hmem
        simp at this
      refine ⟨⟨fun h => ?_, fun h => absurd h hs⟩, ⟨fun _ => ⟨hs, Or.inl hnotin⟩, fun _ => hres⟩⟩
      rw [hres] at h
      simp at h
    | cons c afterFirst =>
      have hc : c = '#' := by
        have := dropWhile_head_false hdrop
        simpa using this
      subst hc
      have hsplitBase : s = s.takeWhile (fun c => !(c = '#')) ++
          ('#' :: afterFirst) := by
        conv_lhs => rw [← List.takeWhile_append_dropWhile
          (p := fun c => !(c = '#')) (l := s)]
        rw [hdrop]
      have hnotin : '#' ∉ s.takeWhile (fun c => !(c = '#')) := by
        intro hmem
        have := mem_takeWhile_pred hmem
        simp at this
      have hin : '#' ∈ s := by
        rw [hsplitBase]
        simp
      cases afterFirst with
      | nil =>
        cases hv : parseNatFromSlice U64MAX (s.takeWhile (fun c => !(c = '#'))) with
        | none =>
          have hres : VectorSessionToken.from_str s =
              .error (.InvalidVersion (s.takeWhile (fun c => !(c = '#')))) := by
            rw [VectorSessionToken.from_str, if_neg hs]
            dsimp only
            rw [hdrop, hv]
          constructor
          · constructor
            · intro h
              rw [hres] at h
              simp at h
            · intro h
              exact absurd h hs
          · constructor
            · intro h
              rw [hres] at h
              simp at h
            · rintro ⟨-, hcase | ⟨v, hnv, hvsome, hveq⟩⟩
              · exact absurd hin hcase
              · have htv : s.takeWhile (fun c => !(c = '#')) = v := by
                  rw [hveq, takeWhile_append_all ['#']
                    (fun x hx => by
                      have hne : x ≠ '#' := fun hx2 => hnv (hx2 ▸ hx)
                      simpa using hne)]
                  simp
                rw [htv] at hv
                rw [hv] at hvsome
                simp at hvsome
        | some n =>
          have hres : VectorSessionToken.from_str s = .error .MissingComponents := by
            rw [VectorSessionToken.from_str, if_neg hs]
            dsimp only
            rw [hdrop, hv]
          refine ⟨⟨fun h => ?_, fun h => absurd h hs⟩,
            ⟨fun _ => ⟨hs, Or.inr ⟨_, hnotin, ?_, hsplitBase⟩⟩, fun _ => hres⟩⟩
          · rw [hres] at h
            simp at h
          · rw [hv]
            rfl
      | cons c2 rest2 =>
        have hshape : ∀ e, VectorSessionToken.from_str s = .error e →
            e ≠ .EmptyInput ∧ e ≠ .MissingComponents := by
          intro e he
          simp only [VectorSessionToken.from_str, if_neg hs, hdrop] at he
          repeat' split at he
          all_goals
            first
              | exact Except.noConfusion he
              | (injection he; subst_vars; simp; done)
              | (rename_i he2; injection he; subst_vars;
                  rcases componentsGo_error_shape _ _ _ _ he2 with ⟨c, hc⟩ | ⟨c, hc⟩ | ⟨c, hc⟩ <;>
                    (subst hc; simp))
        constructor
        · constructor
          · intro h
            exact absurd rfl (hshape _ h).1
          · intro h
            exact absurd h hs
        · constructor
          · intro h
            exact absurd rfl (hshape _ h).2
          · rintro ⟨-, hcase | ⟨v, hnv, -, hveq⟩⟩
            · exact absurd hin hcase
            · have : s.dropWhile (fun c => !(c = '#')) = ['#'] := by
                rw [hveq, dropWhile_append_all ['#']
                  (fun x hx => by
                    have hne : x ≠ '#' := fun hx2 => hnv (hx2 ▸ hx)
                    simpa using hne)]
                rfl
              rw [hdrop] at this
              simp at this

/-! ## Decimal rendering and digit parsing lemmas (towards C4) -/

theorem toDecimalGo_append (n : Nat) : ∀ acc, toDecimalGo n acc = toDecimalGo n [] ++ acc := by
  induction n using Nat.strong_induction_on with
  | _ n ih =>
    intro acc
    by_cases h : n = 0
    · subst h
      have h0 : ∀ acc2 : List Char, toDecimalGo 0 acc2 = acc2 := fun acc2 => by
        rw [toDecimalGo]; simp
      rw [h0, h0]
      simp
    · have hlt : n / 10 < n := Nat.div_lt_self (Nat.pos_of_ne_zero h) (by decide)
      rw [toDecimalGo, dif_neg h]
      conv_rhs => rw [toDecimalGo, dif_neg h]
      rw [ih _ hlt (Char.ofNat (48 + n % 10) :: acc), ih _ hlt [Char.ofNat (48 + n % 10)]]
      simp

theorem digitChar_toNat (d : Nat) (hd : d < 10) : (Char.ofNat (48 + d)).toNat = 48 + d := by
  interval_cases d <;> decide

theorem digitChar_isDigit (d : Nat) (hd : d < 10) : (Char.ofNat (48 + d)).isDigit = true := by
  interval_cases d <;> decide

theorem toDecimalGo_digits (n : Nat) : ∀ c ∈ toDecimalGo n [], c.isDigit = true := by
  induction n using Nat.strong_induction_on with
  | _ n ih =>
    intro c hc
    by_cases h : n = 0
    · rw [toDecimalGo] at hc
      simp [h] at hc
    · have hlt : n / 10 < n := Nat.div_lt_self (Nat.pos_of_ne_zero h) (by decide)
      rw [toDecimalGo, dif_neg h, toDecimalGo_append] at hc
      rcases List.mem_append.mp hc with hc | hc
      · exact ih _ hlt c hc
      · rw [List.mem_singleton] at hc
        subst hc
        exact digitChar_isDigit _ (Nat.mod_lt _ (by decide))

theorem toDecimal_digits (n : Nat) : ∀ c ∈ toDecimal n, c.isDigit = true := by
  intro c hc
  rw [toDecimal] at hc
  by_cases h : n = 0
  · rw [if_pos h, List.mem_singleton] at hc
    subst hc
    decide
  · rw [if_neg h] at hc
    exact toDecimalGo_digits n c hc

theorem toDecimal_ne_nil (n : Nat) : toDecimal n ≠ [] := by
  rw [toDecimal]
  by_cases h : n = 0
  · simp [h]
  · rw [if_neg h, toDecimalGo, dif_neg h, toDecimalGo_append]
    simp

theorem digit_not_hash {c : Char} (h : c.isDigit = true) : (!(c = '#')) = true := by
  simp only [Bool.not_eq_true', decide_eq_false_iff_not]
  intro hc
  subst hc
  exact absurd h (by decide)

theorem digit_not_eqsign {c : Char} (h : c.isDigit = true) : (!(c = '=')) = true := by
  simp only [Bool.not_eq_true', decide_eq_false_iff_not]
  intro hc
  subst hc
  exact absurd h (by decide)

theorem digitsVal_append (l1 l2 : List Char) :
    ∀ a, digitsVal a (l1 ++ l2) = digitsVal (digitsVal a l1) l2 := by
  induction l1 with
  | nil => intro a; rfl
  | cons c cs ih => intro a; exact ih _

theorem digitsVal_ge (l : List Char) : ∀ a, a ≤ digitsVal a l := by
  induction l with
  | nil => intro a; exact le_refl _
  | cons c cs ih =>
    intro a
    calc a ≤ a * 10 + (c.toNat - 48) := by omega
      _ ≤ digitsVal (a * 10 + (c.toNat - 48)) cs := ih _
      _ = digitsVal a (c :: cs) := rfl

theorem digitsVal_toDecimalGo (n : Nat) :
    ∀ a, digitsVal a (toDecimalGo n []) =
      a * 10 ^ (toDecimalGo n []).length + n := by
  induction n using Nat.strong_induction_on with
  | _ n ih =>
    intro a
    by_cases h : n = 0
    · subst h
      have h0 : toDecimalGo 0 [] = [] := by rw [toDecimalGo]; simp
      rw [h0, List.length_nil, pow_zero, Nat.mul_one, Nat.add_zero]
      rfl
    · have hlt : n / 10 < n := Nat.div_lt_self (Nat.pos_of_ne_zero h) (by decide)
      have hm : n % 10 < 10 := Nat.mod_lt _ (by decide)
      obtain ⟨l, hl⟩ : ∃ l, toDecimalGo (n / 10) [] = l := ⟨_, rfl⟩
      have hsplit : toDecimalGo n [] = l ++ [Char.ofNat (48 + n % 10)] := by
        rw [toDecimalGo, dif_neg h, toDecimalGo_append, hl]
      have hih := ih _ hlt a
      rw [hl] at hih
      rw [hsplit, digitsVal_append, hih]
      have hc : (Char.ofNat (48 + n % 10)).toNat - 48 = n % 10 := by
        rw [digitChar_toNat _ hm]
        omega
      have hd : digitsVal (a * 10 ^ l.length + n / 10) [Char.ofNat (48 + n % 10)] =
          (a * 10 ^ l.length + n / 10) * 10 + n % 10 := by
        show (a * 10 ^ l.length + n / 10) * 10 +
            ((Char.ofNat (48 + n % 10)).toNat - 48) = _
        rw [hc]
      rw [hd, List.length_append, List.length_singleton, pow_succ]
      calc (a * 10 ^ l.length + n / 10) * 10 + n % 10
          = a * (10 ^ l.length * 10) + (10 * (n / 10) + n % 10) := by ring
        _ = a * (10 ^ l.length * 10) + n := by rw [Nat.div_add_mod]

theorem digitsVal_toDecimal (n : Nat) : digitsVal 0 (toDecimal n) = n := by
  rw [toDecimal]
  by_cases h : n = 0
  · subst h
    rw [if_pos rfl]
    decide
  · rw [if_neg h, digitsVal_toDecimalGo]
    rw [Nat.zero_mul, Nat.zero_add]

theorem parseNatGo_le (bound : Nat) :
    ∀ (s : List Char) (acc n : Nat), acc ≤ bound →
      parseNatGo bound s acc = some n → n ≤ bound := by
  intro s
  induction s with
  | nil =>
    intro acc n hacc h
    rw [parseNatGo] at h
    injection h with h
    exact h ▸ hacc
  | cons c cs ih =>
    intro acc n hacc h
    rw [parseNatGo] at h
    by_cases hd : c.isDigit = true
    · rw [if_pos hd] at h
      by_cases h1 : acc * 10 > bound
      · rw [if_pos h1] at h; exact absurd h (by simp)
      · rw [if_neg h1] at h
        by_cases h2 : acc * 10 + (c.toNat - 48) > bound
        · rw [if_pos h2] at h; exact absurd h (by simp)
        · rw [if_neg h2] at h
          exact ih _ _ (by omega) h
    · rw [if_neg hd] at h
      exact absurd h (by simp)

theorem parseNatFromSlice_le {bound : Nat} {s : List Char} {n : Nat}
    (h : parseNatFromSlice bound s = some n) : n ≤ bound := by
  rw [parseNatFromSlice] at h
  by_cases hs : s = []
  · rw [if_pos hs] at h; exact absurd h (by simp)
  · rw [if_neg hs] at h
    exact parseNatGo_le bound s 0 n (Nat.zero_le _) h

theorem parseNatGo_digits (bound : Nat) :
    ∀ (s : List Char) (acc : Nat), (∀ c ∈ s, c.isDigit = true) →
      digitsVal acc s ≤ bound → parseNatGo bound s acc = some (digitsVal acc s) := by
  intro s
  induction s with
  | nil => intro acc _ _; rfl
  | cons c cs ih =>
    intro acc hdig hle
    have hc := hdig c (List.mem_cons_self _ _)
    have hval : digitsVal acc (c :: cs) = digitsVal (acc * 10 + (c.toNat - 48)) cs := rfl
    have hstep : acc * 10 + (c.toNat - 48) ≤ bound := by
      calc acc * 10 + (c.toNat - 48) ≤ digitsVal (acc * 10 + (c.toNat - 48)) cs :=
            digitsVal_ge _ _
        _ = digitsVal acc (c :: cs) := rfl
        _ ≤ bound := hle
    rw [parseNatGo, if_pos hc, if_neg (by omega), if_neg (by omega)]
    rw [hval]
    exact ih _ (fun x hx => hdig x (List.mem_cons_of_mem _ hx)) (hval ▸ hle)

theorem parseNat_toDecimal {bound n : Nat} (h : n ≤ bound) :
    parseNatFromSlice bound (toDecimal n) = some n := by
  rw [parseNatFromSlice, if_neg (toDecimal_ne_nil n)]
  have := parseNatGo_digits bound (toDecimal n) 0 (toDecimal_digits n)
    (by rw [digitsVal_toDecimal]; exact h)
  rw [digitsVal_toDecimal] at this
  exact this

/-! ## Well-formedness of parsed tokens (towards C4) -/

theorem parseComponent_ok_bounds {comp : List Char} {k v : Nat}
    (h : VectorSessionToken.parseComponent comp = .ok (k, v)) :
    k ≤ U32MAX ∧ v ≤ U64MAX := by
  unfold VectorSessionToken.parseComponent at h
  dsimp only at h
  repeat' split at h
  all_goals
    first
      | exact Except.noConfusion h
      | (injection h with h; injection h with h1 h2; subst_vars;
         exact ⟨parseNatFromSlice_le (by assumption), parseNatFromSlice_le (by assumption)⟩)

theorem componentsGo_wf :
    ∀ (s : List Char) (m : List (Nat × Nat)) (comp : List Char) (m' : List (Nat × Nat)),
      (m.map Prod.fst).Nodup → (∀ kv ∈ m, kv.1 ≤ U32MAX ∧ kv.2 ≤ U64MAX) →
      VectorSessionToken.componentsGo m comp s = .ok m' →
      (m'.map Prod.fst).Nodup ∧ ∀ kv ∈ m', kv.1 ≤ U32MAX ∧ kv.2 ≤ U64MAX := by
  intro s
  induction s with
  | nil =>
    intro m comp m' hn hb h
    rw [VectorSessionToken.componentsGo] at h
    split at h
    · exact Except.noConfusion h
    · rename_i k v hpc
      injection h with h
      subst h
      have hkb := parseComponent_ok_bounds hpc
      refine ⟨insertAL_nodup hn _ _, ?_⟩
      intro kv hkv
      rcases insertAL_mem hkv with hm | hm
      · exact hb kv hm
      · rw [hm]; exact hkb
  | cons c rest ih =>
    intro m comp m' hn hb h
    rw [VectorSessionToken.componentsGo] at h
    by_cases hc : c = '#'
    · rw [if_pos hc] at h
      split at h
      · exact Except.noConfusion h
      · rename_i k v hpc
        have hkb := parseComponent_ok_bounds hpc
        cases rest with
        | nil =>
          injection h with h
          subst h
          refine ⟨insertAL_nodup hn _ _, ?_⟩
          intro kv hkv
          rcases insertAL_mem hkv with hm | hm
          · exact hb kv hm
          · rw [hm]; exact hkb
        | cons c2 rest2 =>
          refine ih _ _ _ (insertAL_nodup hn _ _) ?_ h
          intro kv hkv
          rcases insertAL_mem hkv with hm | hm
          · exact hb kv hm
          · rw [hm]; exact hkb
    · rw [if_neg hc] at h
      exact ih _ _ _ hn hb h

theorem from_str_wf {s : List Char} {t : VectorSessionToken}
    (h : VectorSessionToken.from_str s = .ok t) :
    t.version ≤ U64MAX ∧ t.global_lsn ≤ U64MAX ∧
      (t.regional_lsns.map Prod.fst).Nodup ∧
      ∀ kv ∈ t.regional_lsns, kv.1 ≤ U32MAX ∧ kv.2 ≤ U64MAX := by
  unfold VectorSessionToken.from_str at h
  dsimp only at h
  repeat' split at h
  all_goals
    first
      | exact Except.noConfusion h
      | (injection h with h; subst h;
         refine ⟨parseNatFromSlice_le (by assumption),
           parseNatFromSlice_le (by assumption), ?_, ?_⟩ <;> (simp; done))
      | (rename_i m0 hm0; injection h with h; subst h;
         have hwf := componentsGo_wf _ _ _ _ (by simp) (by simp) hm0;
         exact ⟨parseNatFromSlice_le (by assumption),
           parseNatFromSlice_le (by assumption), hwf.1, hwf.2⟩)

/-! ## Fold/insert lemmas (towards C4) -/

theorem insertAL_not_mem {α β : Type} [DecidableEq α] {m : List (α × β)} {k : α}
    (v : β) (h : k ∉ m.map Prod.fst) : insertAL m k v = m ++ [(k, v)] := by
  induction m with
  | nil => rfl
  | cons kv rest ih =>
    simp only [List.map_cons, List.mem_cons] at h
    push_neg at h
    rw [insertAL]
    rw [if_neg (fun hc => h.1 hc.symm)]
    rw [ih h.2]
    rfl

theorem foldl_insert_append :
    ∀ (l m : List (Nat × Nat)), (l.map Prod.fst).Nodup →
      (∀ k ∈ l.map Prod.fst, k ∉ m.map Prod.fst) →
      l.foldl (fun mm kv => insertAL mm kv.1 kv.2) m = m ++ l := by
  intro l
  induction l with
  | nil => intro m _ _; simp
  | cons kv rest ih =>
    intro m hn hd
    simp only [List.map_cons, List.nodup_cons] at hn
    rw [List.foldl_cons, insertAL_not_mem kv.2 (hd kv.1 (by simp))]
    have hd2 : ∀ k ∈ rest.map Prod.fst, k ∉ (m ++ [(kv.1, kv.2)]).map Prod.fst := by
      intro k hk
      rw [List.map_append]
      intro hmem
      rcases List.mem_append.mp hmem with hmem | hmem
      · exact hd k (List.mem_cons_of_mem _ hk) hmem
      · simp only [List.map_cons, List.map_nil, List.mem_singleton] at hmem
        exact hn.1 (hmem ▸ hk)
    rw [ih (m ++ [(kv.1, kv.2)]) hn.2 hd2]
    simp

theorem foldl_insert_nil_eq {l : List (Nat × Nat)} (hn : (l.map Prod.fst).Nodup) :
    l.foldl (fun mm kv => insertAL mm kv.1 kv.2) [] = l := by
  rw [foldl_insert_append l [] hn (by simp)]
  rfl

/-! ## Parsing the formatted text (towards C4) -/

theorem regionComponentText_not_hash (k v : Nat) :
    ∀ c ∈ toDecimal k ++ '=' :: toDecimal v, (!(c = '#')) = true := by
  intro c hc
  rcases List.mem_append.mp hc with hc | hc
  · exact digit_not_hash (toDecimal_digits k c hc)
  · rcases List.mem_cons.mp hc with rfl | hc
    · decide
    · exact digit_not_hash (toDecimal_digits v c hc)

theorem componentsGo_advance :
    ∀ (l1 : List Char) (m : List (Nat × Nat)) (comp rest' : List Char),
      (∀ c ∈ l1, (!(c = '#')) = true) →
      VectorSessionToken.componentsGo m comp (l1 ++ rest') =
        VectorSessionToken.componentsGo m (comp ++ l1) rest' := by
  intro l1
  induction l1 with
  | nil => intro m comp rest' _; simp
  | cons c cs ih =>
    intro m comp rest' h
    have hc := h c (List.mem_cons_self _ _)
    have hcne : ¬ c = '#' := by simpa using hc
    rw [List.cons_append, VectorSessionToken.componentsGo, if_neg hcne]
    rw [ih _ _ _ (fun x hx => h x (List.mem_cons_of_mem _ hx))]
    simp [List.append_assoc]

theorem parseComponent_format {k v : Nat} (hk : k ≤ U32MAX) (hv : v ≤ U64MAX) :
    VectorSessionToken.parseComponent (toDecimal k ++ '=' :: toDecimal v) = .ok (k, v) := by
  have htake : (toDecimal k ++ '=' :: toDecimal v).takeWhile (fun c => !(c = '=')) =
      toDecimal k := by
    rw [takeWhile_append_all _ (fun c hc => digit_not_eqsign (toDecimal_digits k c hc))]
    rw [List.takeWhile_cons]
    simp
  have hdrop : (toDecimal k ++ '=' :: toDecimal v).dropWhile (fun c => !(c = '=')) =
      '=' :: toDecimal v := by
    rw [dropWhile_append_all _ (fun c hc => digit_not_eqsign (toDecimal_digits k c hc))]
    rw [List.dropWhile_cons]
    simp
  rw [VectorSessionToken.parseComponent]
  split
  · rename_i heq
    rw [hdrop] at heq
    exact absurd heq (by simp)
  · rename_i x head lsnStr heq
    rw [hdrop] at heq
    injection heq with hhead hlsn
    subst hlsn
    rw [if_neg (by
      rw [htake]
      push_neg
      exact ⟨toDecimal_ne_nil k, toDecimal_ne_nil v⟩)]
    rw [htake, parseNat_toDecimal hk, parseNat_toDecimal hv]

theorem regionsText_takeWhile_nil (reg : List (Nat × Nat)) :
    (VectorSessionToken.regionsText reg).takeWhile (fun c => !(c = '#')) = [] := by
  cases reg with
  | nil => rfl
  | cons kv rs =>
    rw [VectorSessionToken.regionsText, List.cons_append, List.takeWhile_cons]
    simp

theorem regionsText_dropWhile_self (reg : List (Nat × Nat)) :
    (VectorSessionToken.regionsText reg).dropWhile (fun c => !(c = '#')) =
      VectorSessionToken.regionsText reg := by
  cases reg with
  | nil => rfl
  | cons kv rs =>
    rw [VectorSessionToken.regionsText, List.cons_append, List.dropWhile_cons]
    simp

theorem componentsGo_regionsText :
    ∀ (rest : List (Nat × Nat)) (k v : Nat) (m : List (Nat × Nat)),
      k ≤ U32MAX → v ≤ U64MAX →
      (∀ kv ∈ rest, kv.1 ≤ U32MAX ∧ kv.2 ≤ U64MAX) →
      VectorSessionToken.componentsGo m []
          ((toDecimal k ++ '=' :: toDecimal v) ++ VectorSessionToken.regionsText rest) =
        .ok (rest.foldl (fun mm kv => insertAL mm kv.1 kv.2) (insertAL m k v)) := by
  intro rest
  induction rest with
  | nil =>
    intro k v m hk hv _
    rw [VectorSessionToken.regionsText,
      componentsGo_advance _ _ _ _ (regionComponentText_not_hash k v)]
    rw [List.nil_append, VectorSessionToken.componentsGo, parseComponent_format hk hv]
    rfl
  | cons kv2 rest2 ih =>
    intro k v m hk hv hb
    obtain ⟨k2, v2⟩ := kv2
    have hk2 := hb (k2, v2) (List.mem_cons_self _ _)
    have hb2 : ∀ kv ∈ rest2, kv.1 ≤ U32MAX ∧ kv.2 ≤ U64MAX :=
      fun kv hkv => hb kv (List.mem_cons_of_mem _ hkv)
    have hreg : VectorSessionToken.regionsText ((k2, v2) :: rest2) =
        '#' :: ((toDecimal k2 ++ '=' :: toDecimal v2) ++
          VectorSessionToken.regionsText rest2) := by
      rw [VectorSessionToken.regionsText, List.cons_append]
    rw [hreg, componentsGo_advance _ _ _ _ (regionComponentText_not_hash k v),
      List.nil_append, VectorSessionToken.componentsGo, if_pos rfl,
      parseComponent_format hk hv]
    have hbodyne : (toDecimal k2 ++ '=' :: toDecimal v2) ++
        VectorSessionToken.regionsText rest2 ≠ [] := by
      intro hc
      rcases List.append_eq_nil.mp hc with ⟨hc1, -⟩
      exact toDecimal_ne_nil k2 (List.append_eq_nil.mp hc1).1
    simp only []
    split
    · rename_i heq
      exact absurd heq hbodyne
    · rw [ih k2 v2 (insertAL m k v) hk2.1 hk2.2 hb2]
      rw [List.foldl_cons]

theorem from_str_format {t : VectorSessionToken}
    (hv : t.version ≤ U64MAX) (hg : t.global_lsn ≤ U64MAX)
    (hn : (t.regional_lsns.map Prod.fst).Nodup)
    (hb : ∀ kv ∈ t.regional_lsns, kv.1 ≤ U32MAX ∧ kv.2 ≤ U64MAX) :
    VectorSessionToken.from_str t.format = .ok t := by
  obtain ⟨ver, glsn, reg⟩ := t
  simp only at hv hg hn hb
  rw [VectorSessionToken.format]
  simp only
  have hdv : ∀ c ∈ toDecimal ver, (!(c = '#')) = true :=
    fun c hc => digit_not_hash (toDecimal_digits ver c hc)
  have hdg : ∀ c ∈ toDecimal glsn, (!(c = '#')) = true :=
    fun c hc => digit_not_hash (toDecimal_digits glsn c hc)
  have hne : toDecimal ver ++ '#' ::
      (toDecimal glsn ++ VectorSessionToken.regionsText reg) ≠ [] := by
    intro hc
    exact toDecimal_ne_nil ver (List.append_eq_nil.mp hc).1
  have htake1 : (toDecimal ver ++ '#' ::
      (toDecimal glsn ++ VectorSessionToken.regionsText reg)).takeWhile
        (fun c => !(c = '#')) = toDecimal ver := by
    rw [takeWhile_append_all _ hdv, List.takeWhile_cons]
    simp
  have hdrop1 : (toDecimal ver ++ '#' ::
      (toDecimal glsn ++ VectorSessionToken.regionsText reg)).dropWhile
        (fun c => !(c = '#')) =
      '#' :: (toDecimal glsn ++ VectorSessionToken.regionsText reg) := by
    rw [dropWhile_append_all _ hdv, List.dropWhile_cons]
    simp
  have htake2 : (toDecimal glsn ++ VectorSessionToken.regionsText reg).takeWhile
      (fun c => !(c = '#')) = toDecimal glsn := by
    rw [takeWhile_append_all _ hdg, regionsText_takeWhile_nil, List.append_nil]
  have hdrop2 : (toDecimal glsn ++ VectorSessionToken.regionsText reg).dropWhile
      (fun c => !(c = '#')) = VectorSessionToken.regionsText reg := by
    rw [dropWhile_append_all _ hdg, regionsText_dropWhile_self]
  rw [VectorSessionToken.from_str, if_neg hne]
  dsimp only
  split
  · rename_i heq
    rw [hdrop1] at heq
    exact absurd heq (by simp)
  · rename_i x c afterFirst heq
    rw [hdrop1] at heq
    injection heq with hceq hafter
    subst hafter
    rw [htake1, parseNat_toDecimal hv, htake2, parseNat_toDecimal hg, hdrop2]
    simp only []
    split
    · rename_i heq2
      exact absurd heq2 (by
        intro hc
        exact toDecimal_ne_nil glsn (List.append_eq_nil.mp hc).1)
    · cases reg with
      | nil => rfl
      | cons kv rs =>
        obtain ⟨k2, v2⟩ := kv
        have hkb := hb (k2, v2) (List.mem_cons_self _ _)
        have hbrs : ∀ kv ∈ rs, kv.1 ≤ U32MAX ∧ kv.2 ≤ U64MAX :=
          fun kv hkv => hb kv (List.mem_cons_of_mem _ hkv)
        have hreg : VectorSessionToken.regionsText ((k2, v2) :: rs) =
            '#' :: ((toDecimal k2 ++ '=' :: toDecimal v2) ++
              VectorSessionToken.regionsText rs) := by
          rw [VectorSessionToken.regionsText, List.cons_append]
        rw [hreg]
        simp only []
        split
        · rename_i heq3
          exact absurd heq3 (by
            intro hc
            rcases List.append_eq_nil.mp hc with ⟨hc1, -⟩
            exact toDecimal_ne_nil k2 (List.append_eq_nil.mp hc1).1)
        · rw [componentsGo_regionsText rs k2 v2 [] hkb.1 hkb.2 hbrs]
          simp only []
          have hfold := foldl_insert_nil_eq (l := (k2, v2) :: rs) hn
          rw [List.foldl_cons] at hfold
          rw [hfold]

/-- Looking a key up in an appended association list checks the left part
first and falls back to the right part. -/
theorem lookupAL_append {α β : Type} [DecidableEq α]
    (l1 l2 : List (α × β)) (k : α) :
    lookupAL (l1 ++ l2) k =
      match lookupAL l1 k with
      | some v => some v
      | none => lookupAL l2 k := by
  induction l1 with
  | nil => rfl
  | cons kv l1 ih =>
    obtain ⟨k', v⟩ := kv
    rw [List.cons_append, lookupAL, lookupAL]
    by_cases h : k' = k
    · subst h
      simp
    · rw [if_neg h, if_neg h, ih]

/-- Folding `insertAL` over an ordered pair list realises last-wins
semantics: each key maps to its last occurrence in the list (the first
occurrence in the reversed list), falling back to the starting map. -/
theorem lookupAL_foldl_insert_pairs (ps : List (Nat × Nat)) :
    ∀ (m : List (Nat × Nat)) (k : Nat),
      lookupAL (ps.foldl (fun mm kv => insertAL mm kv.1 kv.2) m) k =
        match lookupAL ps.reverse k with
        | some v => some v
        | none => lookupAL m k := by
  induction ps with
  | nil => intro m k; rfl
  | cons kv ps ih =>
    intro m k
    obtain ⟨a, b⟩ := kv
    rw [List.foldl_cons, ih, List.reverse_cons, lookupAL_append]
    cases hl : lookupAL ps.reverse k with
    | some v => rfl
    | none =>
      show lookupAL (insertAL m a b) k =
        match lookupAL [(a, b)] k with
        | some v => some v
        | none => lookupAL m k
      by_cases hk : k = a
      · subst hk
        rw [lookupAL_insert_self, lookupAL, if_pos rfl]
      · rw [lookupAL_insert_ne m a k b hk, lookupAL, if_neg (Ne.symm hk)]
        rfl

namespace VectorSessionToken

/-- `componentsGo` computes exactly the last-wins `insertAL` fold of the raw
ordered component list collected by `componentsRawGo`. -/
theorem componentsGo_vs_raw :
    ∀ (s : List Char) (m : List (Nat × Nat)) (comp : List Char)
      (m' : List (Nat × Nat)),
      componentsGo m comp s = .ok m' →
      ∀ acc, ∃ ps, componentsRawGo acc comp s = .ok (acc ++ ps) ∧
        m' = ps.foldl (fun mm kv => insertAL mm kv.1 kv.2) m := by
  intro s
  induction s with
  | nil =>
    intro m comp m' h acc
    rw [componentsGo] at h
    rw [componentsRawGo]
    split at h
    · exact Except.noConfusion h
    · rename_i k v heq
      injection h with h
      refine ⟨[(k, v)], rfl, ?_⟩
      rw [← h]
      rfl
  | cons c rest ih =>
    intro m comp m' h acc
    rw [componentsGo] at h
    rw [componentsRawGo]
    by_cases hc : c = '#'
    · rw [if_pos hc] at h
      rw [if_pos hc]
      split at h
      · exact Except.noConfusion h
      · rename_i k v heq
        cases rest with
        | nil =>
          injection h with h
          refine ⟨[(k, v)], rfl, ?_⟩
          rw [← h]
          rfl
        | cons c2 rest2 =>
          obtain ⟨ps, hps, hm'⟩ := ih (insertAL m k v) [] m' h (acc ++ [(k, v)])
          refine ⟨(k, v) :: ps, ?_, ?_⟩
          · show componentsRawGo (acc ++ [(k, v)]) [] (c2 :: rest2) =
              .ok (acc ++ (k, v) :: ps)
            rw [hps]
            congr 1
            simp
          · rw [hm', List.foldl_cons]
    · rw [if_neg hc] at h
      rw [if_neg hc]
      exact ih m (comp ++ [c]) m' h acc

/-- A successful parse and the raw-pair parse agree: the token's regional map
is the last-wins fold of the raw ordered component list. -/
theorem from_str_pairs_spec {s : List Char} {t : VectorSessionToken}
    (h : from_str s = .ok t) :
    ∃ ps, from_str_pairs s = .ok ps ∧
      t.regional_lsns = ps.foldl (fun mm kv => insertAL mm kv.1 kv.2) [] := by
  rw [from_str] at h
  rw [from_str_pairs]
  by_cases hs : s = []
  · rw [if_pos hs] at h
    exact Except.noConfusion h
  · rw [if_neg hs] at h
    rw [if_neg hs]
    dsimp only at h ⊢
    split at h
    · exact Except.noConfusion h
    · split at h
      · exact Except.noConfusion h
      · split at h
        · exact Except.noConfusion h
        · rename_i version heq2
          split at h
          · exact Except.noConfusion h
          · rename_i global_lsn heq3
            split at h
            · injection h with h
              refine ⟨[], rfl, ?_⟩
              rw [← h]
              rfl
            · split at h
              · injection h with h
                refine ⟨[], rfl, ?_⟩
                rw [← h]
                rfl
              · split at h
                · exact Except.noConfusion h
                · rename_i m heq5
                  injection h with h
                  obtain ⟨ps, hps, hm⟩ := componentsGo_vs_raw _ [] [] m heq5 []
                  rw [List.nil_append] at hps
                  refine ⟨ps, hps, ?_⟩
                  rw [← h]
                  exact hm

end VectorSessionToken

/-- C4: round-trip law — for every text that `from_str` accepts as a vector
session token, formatting the parsed token and parsing the formatted text
again yields the same structured value (version, global LSN and regional map
all equal); and the parsed regional map reads each region key's *last*
occurrence in the input text: looking a key up in the map agrees with looking
it up in the reversed raw component list, so duplicate keys resolve to the
last value only. -/
theorem parse_format_roundtrip (s : List Char) (t : VectorSessionToken)
    (h : VectorSessionToken.from_str s = .ok t) :
    VectorSessionToken.from_str t.format = .ok t ∧
    ∃ ps, VectorSessionToken.from_str_pairs s = .ok ps ∧
      ∀ k, lookupAL t.regional_lsns k = lookupAL ps.reverse k := by
  obtain ⟨hv, hg, hn, hb⟩ := from_str_wf h
  refine ⟨from_str_format hv hg hn hb, ?_⟩
  obtain ⟨ps, hps, hfold⟩ := VectorSessionToken.from_str_pairs_spec h
  refine ⟨ps, hps, fun k => ?_⟩
  rw [hfold, lookupAL_foldl_insert_pairs]
  cases hl : lookupAL ps.reverse k <;> rfl

/-- C4 witness: `"1#1000#100=1500#100=2500"` parses to the token
`⟨1, 1000, [(100, 2500)]⟩` (the duplicate region key `100` resolves to the
last value `2500`), the token's formatted text parses back to the same token,
and the raw component list is `[(100, 1500), (100, 2500)]` whose reversed
lookup agrees with the map. -/
theorem parse_format_roundtrip_witness :
    VectorSessionToken.from_str ("1#1000#100=1500#100=2500".toList) =
      .ok ⟨1, 1000, [(100, 2500)]⟩ ∧
    (VectorSessionToken.from_str
        (VectorSessionToken.format ⟨1, 1000, [(100, 2500)]⟩) =
      .ok ⟨1, 1000, [(100, 2500)]⟩ ∧
    ∃ ps, VectorSessionToken.from_str_pairs ("1#1000#100=1500#100=2500".toList) =
        .ok ps ∧
      ∀ k, lookupAL (VectorSessionToken.regional_lsns ⟨1, 1000, [(100, 2500)]⟩) k =
        lookupAL ps.reverse k) :=
  ⟨by decide, parse_format_roundtrip ("1#1000#100=1500#100=2500".toList)
    ⟨1, 1000, [(100, 2500)]⟩ (by decide)⟩

/-- C9: for a container id with no registry entry, a `Session::set_session_token`
call that fails leaves the registry unchanged: the registry's state is
untouched, `container_count` is unchanged, and `get_session_token` for that
container still returns no token. -/
theorem session_set_error_atomic (sess : Registry) (container token : List Char)
    (e : Error) (hmiss : lookupAL sess container = none)
    (herr : (Session.set_session_token sess container token).1 = .error e) :
    (Session.set_session_token sess container token).2 = sess ∧
      Session.container_count (Session.set_session_token sess container token).2 =
        Session.container_count sess ∧
      Session.get_session_token
        (Session.set_session_token sess container token).2 container = none := by
  rcases hr : ContainerSession.set_session_token [] token with ⟨r1, store'⟩
  cases r1 with
  | error e' =>
    have hcall : Session.set_session_token sess container token = (.error e', sess) := by
      simp only [Session.set_session_token, hmiss, hr]
    rw [hcall]
    exact ⟨rfl, rfl, by simp [Session.get_session_token, hmiss]⟩
  | ok u =>
    have hcall : Session.set_session_token sess container token =
        (.ok (), insertAL sess container store') := by
      simp only [Session.set_session_token, hmiss, hr]
    rw [hcall] at herr
    simp at herr

/-- Witness for C9 at a concrete input: an empty registry and an unparsable
token text. -/
theorem session_set_error_atomic_witness :
    (Session.set_session_token [] ("c".toList) ("bad".toList)).2 = [] ∧
      Session.container_count (Session.set_session_token [] ("c".toList) ("bad".toList)).2 =
        Session.container_count [] ∧
      Session.get_session_token
        (Session.set_session_token [] ("c".toList) ("bad".toList)).2 ("c".toList) = none :=
  session_set_error_atomic [] ("c".toList) ("bad".toList) .MissingComponents
    (by rfl) (by rfl)

/-! ## Claim C10: whitespace-only segments leave the store untouched -/

theorem setLoop_all_empty (segs : List (List Char)) (store : CStore)
    (h : ∀ seg ∈ segs, trimChars seg = []) :
    ContainerSession.setLoop store segs = (.ok (), store) := by
  induction segs with
  | nil => rfl
  | cons seg rest ih =>
    have hseg := h seg (List.mem_cons_self _ _)
    simp only [ContainerSession.setLoop, hseg, if_pos rfl]
    exact ih fun s hs => h s (List.mem_cons_of_mem _ hs)

/-- C10: a non-empty token text all of whose comma-separated segments trim to
the empty string makes `ContainerSession::set_session_token` succeed without
changing the partition-token store. -/
theorem container_set_all_empty_segments (store : CStore) (token : List Char)
    (hne : token ≠ []) (h : ∀ seg ∈ splitComma token, trimChars seg = []) :
    ContainerSession.set_session_token store token = (.ok (), store) := by
  unfold ContainerSession.set_session_token
  rw [if_neg hne]
  exact setLoop_all_empty _ _ h

/-- Witness for C10 at the concrete input `" , "`. -/
theorem container_set_all_empty_segments_witness :
    ContainerSession.set_session_token
        [(("42").toList, ⟨("42").toList, ⟨1, 2, []⟩⟩)] (" , ".toList) =
      (.ok (), [(("42").toList, ⟨("42").toList, ⟨1, 2, []⟩⟩)]) :=
  container_set_all_empty_segments _ _ (by decide) (by decide)

/-! ## Claim C8: container updates are not transactional across the call -/

/-- The store mutation performed by the segments processed before a failure:
each segment that trims to a parsable partition token is inserted (replacing
any prior entry for its partition id); segments that trim to the empty string
are skipped (an empty string does not parse, so the match's error arm covers
them). -/
def applySegs (store : CStore) (segs : List (List Char)) : CStore :=
  segs.foldl
    (fun st seg =>
      match PartitionSessionToken.from_str (trimChars seg) with
      | .ok pt => insertAL st pt.pkrange_id pt
      | .error _ => st)
    store

theorem setLoop_first_error (pre : List (List Char)) (bad : List Char)
    (post : List (List Char)) (store : CStore) (e : Error)
    (hpre : ∀ seg ∈ pre, trimChars seg = [] ∨
      ∃ pt, PartitionSessionToken.from_str (trimChars seg) = .ok pt)
    (hbadne : trimChars bad ≠ [])
    (hbad : PartitionSessionToken.from_str (trimChars bad) = .error e) :
    ContainerSession.setLoop store (pre ++ bad :: post) =
      (.error e, applySegs store pre) := by
  induction pre generalizing store with
  | nil =>
    simp only [List.nil_append, ContainerSession.setLoop, if_neg hbadne, hbad]
    rfl
  | cons seg rest ih =>
    have hseg := hpre seg (List.mem_cons_self _ _)
    have hrest : ∀ s ∈ rest, trimChars s = [] ∨
        ∃ pt, PartitionSessionToken.from_str (trimChars s) = .ok pt :=
      fun s hs => hpre s (List.mem_cons_of_mem _ hs)
    rcases hseg with hempty | ⟨pt, hok⟩
    · have hparse : PartitionSessionToken.from_str (trimChars seg) = .error .EmptyInput := by
        rw [hempty]; rfl
      have step : ContainerSession.setLoop store ((seg :: rest) ++ bad :: post) =
          ContainerSession.setLoop store (rest ++ bad :: post) := by
        simp [ContainerSession.setLoop, hempty]
      rw [step, ih _ hrest]
      simp [applySegs, hparse]
    · have hne : trimChars seg ≠ [] := by
        intro hc
        rw [hc] at hok
        simp [PartitionSessionToken.from_str] at hok
      have step : ContainerSession.setLoop store ((seg :: rest) ++ bad :: post) =
          ContainerSession.setLoop (insertAL store pt.pkrange_id pt) (rest ++ bad :: post) := by
        simp [ContainerSession.setLoop, hne, hok]
      rw [step, ih _ hrest]
      simp [applySegs, hok]

/-- C8: `ContainerSession::set_session_token` is not transactional: when the
first failing comma-separated segment is `bad`, the call returns exactly that
segment's parse error, every successfully parsed segment before it is already
applied (replacing prior entries for the same partition id, as `applySegs`
does), and no segment at or after the failing one changes the store. -/
theorem container_set_partial_mutation (store : CStore) (token : List Char)
    (pre : List (List Char)) (bad : List Char) (post : List (List Char))
    (e : Error) (hne : token ≠ [])
    (hsplit : splitComma token = pre ++ bad :: post)
    (hpre : ∀ seg ∈ pre, trimChars seg = [] ∨
      ∃ pt, PartitionSessionToken.from_str (trimChars seg) = .ok pt)
    (hbadne : trimChars bad ≠ [])
    (hbad : PartitionSessionToken.from_str (trimChars bad) = .error e) :
    ContainerSession.set_session_token store token =
      (.error e, applySegs store pre) := by
  unfold ContainerSession.set_session_token
  rw [if_neg hne, hsplit]
  exact setLoop_first_error pre bad post store e hpre hbadne hbad

/-- Witness for C8 at the concrete input `"42:1#123,oops,43:1#9"`: the first
segment is applied, the call fails with the second segment's error, the third
segment is never applied. -/
theorem container_set_partial_mutation_witness :
    ContainerSession.set_session_token [] ("42:1#123,oops,43:1#9".toList) =
      (.error .MissingComponents,
        applySegs [] [("42:1#123".toList)]) :=
  container_set_partial_mutation [] ("42:1#123,oops,43:1#9".toList)
    [("42:1#123".toList)] ("oops".toList) [("43:1#9".toList)]
    .MissingComponents (by decide) (by decide)
    (by
      intro seg hseg
      simp only [List.mem_singleton] at hseg
      subst hseg
      exact Or.inr ⟨⟨"42".toList, ⟨1, 123, []⟩⟩, by decide⟩)
    (by decide) (by decide)

end Cosmos
